import Mathlib

/-!
Verification of the WalkPlanner route-optimization engine.

The engine lives in the repository's `RouteOptimizer` component; the shallow
embedding below translates its functions one by one:

* `findShortestPath`      — Dijkstra over the undirected weighted edge list
* `getDistanceBetweenNodes`
* `traverseEdgesInOrder`  — the walk builder
* `getEdgePermutations`, `generateSmartEdgeOrders`, `getAllEdgePermutations`
* `findOptimalPathFromStart`, `optimizeRoute` — the driver

JavaScript numbers are modelled as `ℚ` (the engine only adds and compares
them), `Infinity` as `⊤ : WithTop ℚ`, objects used as maps as total functions
(`Nat → WithTop ℚ`), missing keys reading as `⊤`/`none`, and `Math.random`
as an oracle parameter supplying one comparator per shuffled ordering.
-/

/-- The `Node` interface (`src/types/Route.ts`): integer id, canvas position,
display label.  Only `id` is read by the optimization engine. -/
structure Node where
  id : Nat
  x : ℚ
  y : ℚ
  label : String
deriving DecidableEq, Repr

/-- The `Route` interface (`src/types/Route.ts`): undirected weighted edge.
The `points` polyline is render-only and never read by the engine, so it is
not carried here. -/
structure Route where
  id : Nat
  startNodeId : Nat
  endNodeId : Nat
  distance : ℚ
deriving DecidableEq, Repr

/-- Result record `{ path, totalDistance }` returned by the walk builder. -/
structure WalkResult where
  path : List Nat
  totalDistance : ℚ
deriving DecidableEq, Repr

/-- Outcome of `optimizeRoute`: the early-return `alert` branches are the
rejection of invalid input; otherwise the function always produces a
`{ path, totalDistance }` record (`totalDistance` may be `Infinity`). -/
inductive OptimizeOutcome where
  | invalidInput : OptimizeOutcome
  | result (path : List Nat) (totalDistance : WithTop ℚ) : OptimizeOutcome
deriving DecidableEq, Repr

/-- The node-id list of a node set, in list order. -/
def nodeIds (nodes : List Node) : List Nat := nodes.map Node.id

/-- The inner loop of `findShortestPath` that scans `unvisited` for the node
with the strictly smallest tentative distance (`current`), mirroring

    let current = null; let minDistance = Infinity
    for (const nodeId of unvisited)
      if (distances[nodeId] < minDistance) { minDistance = ...; current = nodeId }

A node with distance `Infinity` is never selected (`∞ < ∞` is false). -/
def findMinNode (unvisited : List Nat) (dist : Nat → WithTop ℚ) : Option Nat :=
  (unvisited.foldl
    (fun acc nodeId => if dist nodeId < acc.2 then (some nodeId, dist nodeId) else acc)
    ((none : Option Nat), (⊤ : WithTop ℚ))).1

/-- The neighbour of `current` along edge `e`, mirroring

    if (route.startNodeId === current) neighbor = route.endNodeId
    else if (route.endNodeId === current) neighbor = route.startNodeId -/
def neighborOf (e : Route) (current : Nat) : Option Nat :=
  if e.startNodeId = current then some e.endNodeId
  else if e.endNodeId = current then some e.startNodeId
  else none

/-- One step of the neighbour-relaxation `routes.forEach` in
`findShortestPath`: relax edge `e` out of `current` (whose fixed tentative
distance is `dc`), updating the distance and predecessor maps. -/
def relaxOne (current : Nat) (dc : WithTop ℚ) (unvisited : List Nat)
    (s : (Nat → WithTop ℚ) × (Nat → Option Nat)) (e : Route) :
    (Nat → WithTop ℚ) × (Nat → Option Nat) :=
  match neighborOf e current with
  | none => s
  | some nb =>
    if nb ∈ unvisited then
      let alt := dc + (e.distance : WithTop ℚ)
      if alt < s.1 nb then
        (fun x => if x = nb then alt else s.1 x,
         fun x => if x = nb then some current else s.2 x)
      else s
    else s

/-- The whole `routes.forEach(...)` relaxation pass of `findShortestPath`. -/
def relaxAll (routes : List Route) (current : Nat) (dc : WithTop ℚ)
    (unvisited : List Nat) (dist : Nat → WithTop ℚ) (prev : Nat → Option Nat) :
    (Nat → WithTop ℚ) × (Nat → Option Nat) :=
  routes.foldl (relaxOne current dc unvisited) (dist, prev)

/-- Path reconstruction of `findShortestPath`:

    while (node !== null) { path.unshift(node); node = previous[node] }

The JavaScript loop is unbounded; here it carries fuel.  The predecessor map
built by the algorithm is acyclic with chains no longer than the node count,
so the fuel passed by `findShortestPath` (node count + 1) is never exhausted
on states the algorithm actually produces. -/
def reconstructPath (prev : Nat → Option Nat) : Nat → Nat → List Nat
  | 0, x => [x]
  | fuel + 1, x =>
    match prev x with
    | none => [x]
    | some y => reconstructPath prev fuel y ++ [x]

/-- The `while (unvisited.size > 0)` loop of `findShortestPath`.  Each
iteration removes the selected node from `unvisited`, so the loop runs at
most `unvisited.length` times; `fuel` is that bound.  Exiting the loop —
either with no selectable node or with `unvisited` exhausted — returns
`null`. -/
def dijkstraLoop (routes : List Route) (endId : Nat) (reconFuel : Nat) :
    Nat → List Nat → (Nat → WithTop ℚ) → (Nat → Option Nat) → Option (List Nat × ℚ)
  | 0, _, _, _ => none
  | fuel + 1, unvisited, dist, prev =>
    match findMinNode unvisited dist with
    | none => none
    | some current =>
      let unvisited' := unvisited.erase current
      if current = endId then
        some (reconstructPath prev reconFuel endId, (dist current).untop' 0)
      else
        let s := relaxAll routes current (dist current) unvisited' dist prev
        dijkstraLoop routes endId reconFuel fuel unvisited' s.1 s.2

/-- `findShortestPath` (Dijkstra's algorithm) from the source: returns the
trivial path when source and target coincide, otherwise runs the loop with
distances initialized to `Infinity` except `distances[startId] = 0`. -/
def findShortestPath (nodes : List Node) (routes : List Route)
    (startId endId : Nat) : Option (List Nat × ℚ) :=
  if startId = endId then some ([startId], 0)
  else
    let unvisited := nodeIds nodes
    dijkstraLoop routes endId (nodes.length + 1) unvisited.length unvisited
      (fun x => if x = startId then (0 : WithTop ℚ) else ⊤) (fun _ => none)

/-- `getDistanceBetweenNodes`: weight of some edge joining the two ids
(either orientation), `0` when none exists. -/
def getDistanceBetweenNodes (routes : List Route) (nodeId1 nodeId2 : Nat) : ℚ :=
  match routes.find? (fun r =>
      (r.startNodeId = nodeId1 && r.endNodeId = nodeId2) ||
      (r.startNodeId = nodeId2 && r.endNodeId = nodeId1)) with
  | some r => r.distance
  | none => 0

/-- Mutable state of `traverseEdgesInOrder`: the walk so far, the current
position, the accumulated distance and the set of covered edge ids. -/
structure TravState where
  path : List Nat
  currentNode : Nat
  totalDistance : ℚ
  edgesCovered : List Nat
deriving DecidableEq, Repr

/-- The hop-appending loop of `traverseEdgesInOrder`:

    for (let i = 1; i < p.length; i++) {
      path.push(p[i]); totalDistance += getDistanceBetweenNodes(p[i-1], p[i]) }

`prev` is `p[i-1]`; the returned triple is (walk, distance, last node). -/
def hopFold (routes : List Route) : Nat → List Nat → List Nat × ℚ → List Nat × ℚ × Nat
  | prev, [], acc => (acc.1, acc.2, prev)
  | prev, x :: rest, acc =>
    hopFold routes x rest (acc.1 ++ [x], acc.2 + getDistanceBetweenNodes routes prev x)

/-- Append a connecting shortest path `p` (which starts at the current node)
to the walk, accumulating hop distances and moving to its last node. -/
def applyHops (routes : List Route) (p : List Nat) (st : TravState) : TravState :=
  match p with
  | [] => st
  | x :: rest =>
    let r := hopFold routes x rest (st.path, st.totalDistance)
    ⟨r.1, r.2.2, r.2.1, st.edgesCovered⟩

/-- The chosen connecting path, mirroring

    let chosenPath = pathToStart
    if (pathToEnd && (!pathToStart || pathToEnd.distance < pathToStart.distance))
      chosenPath = pathToEnd -/
def choosePath (pathToStart pathToEnd : Option (List Nat × ℚ)) : Option (List Nat × ℚ) :=
  match pathToEnd with
  | none => pathToStart
  | some q =>
    match pathToStart with
    | none => some q
    | some r => if q.2 < r.2 then some q else some r

/-- The stitching prelude of the loop body of `traverseEdgesInOrder`: when
the current position is neither endpoint of `e`, compute shortest paths to
both endpoints, choose, and append the chosen connecting path (when it
actually moves). -/
def stitchStep (nodes : List Node) (routes : List Route) (e : Route)
    (st : TravState) : TravState :=
  if st.currentNode ≠ e.startNodeId ∧ st.currentNode ≠ e.endNodeId then
    match choosePath (findShortestPath nodes routes st.currentNode e.startNodeId)
        (findShortestPath nodes routes st.currentNode e.endNodeId) with
    | some p => if 1 < p.1.length then applyHops routes p.1 st else st
    | none => st
  else st

/-- The `for (const edge of edgeOrder)` body of `traverseEdgesInOrder`. -/
def traverseGo (nodes : List Node) (routes : List Route) :
    List Route → TravState → TravState
  | [], st => st
  | e :: rest, st =>
    if e.id ∈ st.edgesCovered then traverseGo nodes routes rest st
    else
      let st1 := stitchStep nodes routes e st
      let cur' := if st1.currentNode = e.startNodeId then e.endNodeId else e.startNodeId
      traverseGo nodes routes rest
        ⟨st1.path ++ [cur'], cur', st1.totalDistance + e.distance, e.id :: st1.edgesCovered⟩

/-- The closing leg of `traverseEdgesInOrder`: shortest path from the final
position back to the start node, appended when it actually moves. -/
def closeWalk (nodes : List Node) (routes : List Route) (startNodeId : Nat)
    (st : TravState) : TravState :=
  match findShortestPath nodes routes st.currentNode startNodeId with
  | some p => if 1 < p.1.length then applyHops routes p.1 st else st
  | none => st

/-- `traverseEdgesInOrder`: walk the edges in the given order, stitching with
shortest paths, then close the walk back to the start.  The declared return
type in the source is nullable, but every control path of the body ends in
`return { path, totalDistance }`. -/
def traverseEdgesInOrder (nodes : List Node) (routes : List Route)
    (startNodeId : Nat) (edgeOrder : List Route) : Option WalkResult :=
  let st := closeWalk nodes routes startNodeId
    (traverseGo nodes routes edgeOrder ⟨[startNodeId], startNodeId, 0, []⟩)
  some ⟨st.path, st.totalDistance⟩

/-- The `(current, remaining)` pairs enumerated by the permutation recursion:
`edges[i]` together with `edges.slice(0, i).concat(edges.slice(i + 1))`, for
each index `i` in order. -/
def picks : List Route → List (Route × List Route)
  | [] => []
  | x :: xs => (x, xs) :: (picks xs).map (fun p => (p.1, x :: p.2))

theorem picks_rem_length {c : Route} {rem l : List Route}
    (h : (c, rem) ∈ picks l) : rem.length + 1 = l.length := by
  induction l generalizing c rem with
  | nil => cases h
  | cons x xs ih =>
    rcases List.mem_cons.mp h with h | h
    · cases h; simp
    · rcases List.mem_map.mp h with ⟨⟨c', rem'⟩, hmem, heq⟩
      cases heq
      simpa using ih hmem

/-- The recursion of `getEdgePermutations`, with explicit fuel standing in
for the structural decrease (each recursive call drops one element, so the
initial fuel `edges.length` is never exhausted; the fuel-out branch is
unreachable for that fuel). -/
def getEdgePermutationsAux : Nat → List Route → List (List Route)
  | 0, edges => [edges]
  | fuel + 1, edges =>
    if edges.length ≤ 1 then [edges]
    else
      (picks edges).flatMap
        (fun p => (getEdgePermutationsAux fuel p.2).map (fun perm => p.1 :: perm))

/-- `getEdgePermutations`: the recursive full-permutation generator. -/
def getEdgePermutations (edges : List Route) : List (List Route) :=
  getEdgePermutationsAux edges.length edges

/-- Insertion of one element according to a JavaScript-style comparator
(negative or zero keeps the element before the probe). -/
def jsInsert (cmp : Route → Route → ℚ) (a : Route) : List Route → List Route
  | [] => [a]
  | b :: rest => if cmp a b ≤ 0 then a :: b :: rest else b :: jsInsert cmp a rest

/-- `Array.prototype.sort(cmp)`, modelled as a stable insertion sort.  For a
consistent comparator this is the sorted order required by the JavaScript
specification; for an inconsistent one (the random shuffle) the order is
implementation defined, but the result is always a permutation of the
input — which is all the engine relies on. -/
def jsSort (cmp : Route → Route → ℚ) : List Route → List Route
  | [] => []
  | a :: rest => jsInsert cmp a (jsSort cmp rest)

/-- `generateSmartEdgeOrders`: ascending sort, descending sort, and ten
shuffles.  Each shuffle is `sort(() => Math.random() - 0.5)`; the stream of
random draws is modelled by the oracle `rnd`, giving one comparator per
shuffle index. -/
def generateSmartEdgeOrders (rnd : Nat → Route → Route → ℚ)
    (edges : List Route) : List (List Route) :=
  [jsSort (fun a b => a.distance - b.distance) edges,
   jsSort (fun a b => b.distance - a.distance) edges] ++
  (List.range 10).map (fun i => jsSort (rnd i) edges)

/-- `getAllEdgePermutations`: trivial ordering for at most one edge, the
heuristic sample beyond eight edges, full permutations otherwise. -/
def getAllEdgePermutations (rnd : Nat → Route → Route → ℚ)
    (edges : List Route) : List (List Route) :=
  if edges.length ≤ 1 then [edges]
  else if 8 < edges.length then generateSmartEdgeOrders rnd edges
  else getEdgePermutations edges

/-- The body of the `for (const edgeOrder of edgeOrders)` loop of
`findOptimalPathFromStart`: keep the strictly better walk. -/
def optStep (nodes : List Node) (routes : List Route) (startNodeId : Nat)
    (acc : List Nat × WithTop ℚ) (edgeOrder : List Route) :
    List Nat × WithTop ℚ :=
  match traverseEdgesInOrder nodes routes startNodeId edgeOrder with
  | some r =>
    if (r.totalDistance : WithTop ℚ) < acc.2 then (r.path, (r.totalDistance : WithTop ℚ))
    else acc
  | none => acc

/-- `findOptimalPathFromStart`: best walk over every candidate edge order
from a fixed start node; `null` when no ordering produced a walk (the
tracked best path is still empty). -/
def findOptimalPathFromStart (nodes : List Node) (routes : List Route)
    (rnd : Nat → Route → Route → ℚ) (startNodeId : Nat) :
    Option (List Nat × WithTop ℚ) :=
  let best := (getAllEdgePermutations rnd routes).foldl
    (optStep nodes routes startNodeId) (([] : List Nat), (⊤ : WithTop ℚ))
  if 0 < best.1.length then some best else none

/-- The body of the `for (const startNode of nodes)` loop of
`optimizeRoute`: keep the strictly better start. -/
def globalStep (nodes : List Node) (routes : List Route)
    (rnd : Nat → Route → Route → ℚ) (acc : List Nat × WithTop ℚ)
    (startNode : Node) : List Nat × WithTop ℚ :=
  match findOptimalPathFromStart nodes routes rnd startNode.id with
  | some r => if r.2 < acc.2 then r else acc
  | none => acc

/-- `optimizeRoute`: reject invalid edge counts, otherwise keep the best walk
over every start node.  The two `alert`-and-return branches are the
validation rejections; the remainder always reaches
`setOptimizationResult(result)`. -/
def optimizeRoute (nodes : List Node) (routes : List Route)
    (rnd : Nat → Route → Route → ℚ) : OptimizeOutcome :=
  if routes.length < 1 then .invalidInput
  else if 12 < routes.length then .invalidInput
  else
    let best := nodes.foldl (globalStep nodes routes rnd)
      (([] : List Nat), (⊤ : WithTop ℚ))
    .result best.1 best.2

/-!
## Specification-side notions

Predicates taken from the specification's wording, used to state the claims:
undirected edge coverage by a node sequence, reachability with accumulated
cost over the undirected edge set, and the walk-closure property.
-/

set_option allowUnsafeReducibility true in
attribute [semireducible] Rat.add Rat.sub Rat.neg Rat.normalize

/-- The consecutive node-id pairs of a node sequence. -/
def consecutivePairs (path : List Nat) : List (Nat × Nat) := path.zip path.tail

/-- A node sequence covers an edge when some consecutive pair matches the
edge's endpoints in either orientation. -/
def coversEdge (path : List Nat) (e : Route) : Prop :=
  ∃ p ∈ consecutivePairs path,
    (p.1 = e.startNodeId ∧ p.2 = e.endNodeId) ∨
    (p.1 = e.endNodeId ∧ p.2 = e.startNodeId)

instance (path : List Nat) (e : Route) : Decidable (coversEdge path e) := by
  unfold coversEdge; infer_instance

/-- Two node ids are joined when some edge of the set has them as its two
endpoints (in either orientation). -/
def joined (routes : List Route) (a b : Nat) : Prop :=
  ∃ e ∈ routes,
    (e.startNodeId = a ∧ e.endNodeId = b) ∨ (e.startNodeId = b ∧ e.endNodeId = a)

/-- Reachability with accumulated cost: `Reach routes u v c` holds when some
walk over the undirected edge set leads from `u` to `v` with total edge
weight `c`. -/
inductive Reach (routes : List Route) : Nat → Nat → ℚ → Prop
  | refl (u : Nat) : Reach routes u u 0
  | step {u v w : Nat} {c : ℚ} (e : Route) (he : e ∈ routes)
      (hr : Reach routes u v c)
      (hend : (e.startNodeId = v ∧ e.endNodeId = w) ∨
              (e.startNodeId = w ∧ e.endNodeId = v)) :
      Reach routes u w (c + e.distance)

/-!
## Concrete instances used by the counterexamples and witnesses
-/

/-- Concrete node `a` (id 1). -/
def nodeA : Node := ⟨1, 0, 0, "a"⟩
/-- Concrete node `b` (id 2). -/
def nodeB : Node := ⟨2, 10, 0, "b"⟩
/-- Concrete node `c` (id 3). -/
def nodeC : Node := ⟨3, 10, 10, "c"⟩
/-- Concrete node `d` (id 4). -/
def nodeD : Node := ⟨4, 0, 10, "d"⟩

/-- Edge `a–b` with weight 1 (id 1). -/
def edgeAB : Route := ⟨1, 1, 2, 1⟩
/-- Edge `c–d` with weight 1 (id 2): together with `edgeAB` this forms a
disconnected graph, two components with one edge each. -/
def edgeCD : Route := ⟨2, 3, 4, 1⟩

/-- A trivial oracle for the random comparator (never consulted below eight
edges). -/
def rndZero : Nat → Route → Route → ℚ := fun _ _ _ => 0

/-- The disconnected two-component graph's node set. -/
def discNodes : List Node := [nodeA, nodeB, nodeC, nodeD]
/-- The disconnected two-component graph's edge set. -/
def discRoutes : List Route := [edgeAB, edgeCD]

/-!
## C2, C3, C4 — behaviour on the disconnected graph

On the graph `a–b`, `c–d` (two components, one edge each) no closed walk
covering both edges exists, yet the optimizer returns the walk `[1, 2, 3]`
with distance 2: the walk builder, unable to stitch to the far component,
silently jumps to the far edge's start endpoint and keeps going, and it also
drops the closing leg when the start is unreachable.  The driver surfaces
this partial, unclosed walk as its result.
-/

/-- C2: the claim fails on the code.  On the disconnected graph the
optimizer returns the walk `[1, 2, 3]`, which does not end where it began
and whose consecutive pairs never traverse the input edge `c–d`; the spec's
closed-walk/full-coverage guarantee is violated. -/
theorem C2_disconnected_walk_neither_closed_nor_covering :
    optimizeRoute discNodes discRoutes rndZero =
      .result [1, 2, 3] ((2 : ℚ) : WithTop ℚ) ∧
    ([1, 2, 3] : List Nat).head? ≠ ([1, 2, 3] : List Nat).getLast? ∧
    ¬ coversEdge [1, 2, 3] edgeCD := by
  refine ⟨by decide, by decide, by decide⟩

/-- C3: the claim fails on the code.  On the disconnected graph — where no
(start, ordering) pair can produce a genuine covering closed walk — the
optimizer does not surface a distinct no-solution outcome: it returns a
nonempty partial walk with a finite distance, indistinguishable from a
success. -/
theorem C3_disconnected_returns_partial_walk_not_no_solution :
    optimizeRoute discNodes discRoutes rndZero =
      .result [1, 2, 3] ((2 : ℚ) : WithTop ℚ) ∧
    ¬ optimizeRoute discNodes discRoutes rndZero = .result [] ⊤ ∧
    ¬ optimizeRoute discNodes discRoutes rndZero = .invalidInput := by
  refine ⟨by decide, by decide, by decide⟩

/-- C4: the claim fails on the code.  The walk builder never returns the
failure value: every control path of `traverseEdgesInOrder` ends in
`return { path, totalDistance }`, so even an ordering whose edge is
unreachable from the current position (here: edge `c–d` after walking
`a–b`) yields a "successful" record instead of `None`. -/
theorem C4_walk_builder_never_fails :
    (∀ (nodes : List Node) (routes : List Route) (startNodeId : Nat)
       (edgeOrder : List Route),
       (traverseEdgesInOrder nodes routes startNodeId edgeOrder).isSome) ∧
    traverseEdgesInOrder discNodes discRoutes 1 [edgeAB, edgeCD] =
      some ⟨[1, 2, 3], 2⟩ := by
  exact ⟨fun _ _ _ _ => rfl, by decide⟩

/-!
## C5 — input validation
-/

/-- C5 counterexample: the claim fails on the code.  The optimizer accepts
an edge referencing the nonexistent node id 99 and an edge with negative
weight, returning computed walks instead of the invalid-input rejection. -/
theorem C5_counterexample_unknown_id_and_negative_weight_accepted :
    optimizeRoute [nodeA] [⟨1, 1, 99, 5⟩] rndZero =
      .result [1, 99] ((5 : ℚ) : WithTop ℚ) ∧
    optimizeRoute [nodeA, nodeB] [⟨1, 1, 2, -3⟩] rndZero =
      .result [1, 2, 1] ((-6 : ℚ) : WithTop ℚ) := by
  refine ⟨by decide, by decide⟩

/-- C5 as amended: the optimizer rejects exactly the out-of-range edge
counts — zero edges or more than twelve — before any search begins; edges
referencing unknown node ids and negative edge weights are not validated
and proceed to the search. -/
theorem C5_invalid_input_iff_edge_count_out_of_range
    (nodes : List Node) (routes : List Route) (rnd : Nat → Route → Route → ℚ) :
    optimizeRoute nodes routes rnd = .invalidInput ↔
      routes.length < 1 ∨ 12 < routes.length := by
  unfold optimizeRoute
  split_ifs with h1 h2
  · simp [h1]
  · simp [h1, h2]
  · simp [h1, h2]

/-!
## C7 — the edge-order generator
-/

theorem picks_length (l : List Route) : (picks l).length = l.length := by
  induction l with
  | nil => rfl
  | cons x xs ih => simp [picks, ih]

theorem picks_cons_perm {c : Route} {rem l : List Route}
    (h : (c, rem) ∈ picks l) : (c :: rem).Perm l := by
  induction l generalizing c rem with
  | nil => cases h
  | cons x xs ih =>
    rcases List.mem_cons.mp h with h | h
    · cases h; exact List.Perm.refl _
    · rcases List.mem_map.mp h with ⟨⟨c', rem'⟩, hmem, heq⟩
      have hc : c' = c := congrArg Prod.fst heq
      have hr : x :: rem' = rem := congrArg Prod.snd heq
      subst hc
      subst hr
      exact (List.Perm.swap x c' rem').trans ((ih hmem).cons x)

theorem mem_picks_of_mem {x : Route} {l : List Route} (h : x ∈ l) :
    (x, l.erase x) ∈ picks l := by
  induction l with
  | nil => cases h
  | cons y ys ih =>
    by_cases hxy : y = x
    · subst hxy
      simp [picks, List.erase_cons_head]
    · have hx : x ∈ ys := by
        rcases List.mem_cons.mp h with h | h
        · exact absurd h.symm hxy
        · exact h
      have herase : (y :: ys).erase x = y :: ys.erase x := by
        rw [List.erase_cons]
        simp [hxy]
      rw [herase]
      simp only [picks, List.mem_cons]
      exact Or.inr (List.mem_map.mpr ⟨(x, ys.erase x), ih hx, rfl⟩)

theorem length_flatMap_const {α β : Type} (l : List α) (f : α → List β) (k : Nat)
    (h : ∀ x ∈ l, (f x).length = k) : (l.flatMap f).length = l.length * k := by
  induction l with
  | nil => simp
  | cons x xs ih =>
    simp only [List.flatMap_cons, List.length_append, h x (List.mem_cons_self x xs),
      ih (fun y hy => h y (List.mem_cons_of_mem _ hy)), List.length_cons]
    ring

theorem getEdgePermutationsAux_length {fuel : Nat} :
    ∀ {l : List Route}, l.length ≤ fuel →
      (getEdgePermutationsAux fuel l).length = l.length.factorial := by
  induction fuel with
  | zero =>
    intro l hl
    have h0 : l.length = 0 := by omega
    simp [getEdgePermutationsAux, h0]
  | succ fuel ih =>
    intro l hl
    by_cases h1 : l.length ≤ 1
    · have hf : l.length.factorial = 1 := by
        interval_cases h : l.length <;> simp
      simp [getEdgePermutationsAux, h1, hf]
    · have hconst : ∀ p ∈ picks l,
          ((getEdgePermutationsAux fuel p.2).map
            (fun perm => p.1 :: perm)).length = (l.length - 1).factorial := by
        intro p hp
        have hrem : p.2.length + 1 = l.length :=
          @picks_rem_length p.1 p.2 l (by simpa using hp)
        simp only [List.length_map]
        rw [ih (by omega)]
        congr 1
        omega
      rw [getEdgePermutationsAux, if_neg h1,
        length_flatMap_const _ _ ((l.length - 1).factorial) hconst, picks_length]
      obtain ⟨m, hm⟩ : ∃ m, l.length = m + 1 := ⟨l.length - 1, by omega⟩
      rw [hm]
      simp [Nat.factorial_succ]

theorem getEdgePermutationsAux_mem_perm {fuel : Nat} :
    ∀ {l p : List Route}, l.length ≤ fuel →
      p ∈ getEdgePermutationsAux fuel l → p.Perm l := by
  induction fuel with
  | zero =>
    intro l p hl hp
    simp only [getEdgePermutationsAux, List.mem_singleton] at hp
    subst hp; exact List.Perm.refl _
  | succ fuel ih =>
    intro l p hl hp
    by_cases h1 : l.length ≤ 1
    · simp only [getEdgePermutationsAux, if_pos h1, List.mem_singleton] at hp
      subst hp; exact List.Perm.refl _
    · rw [getEdgePermutationsAux, if_neg h1, List.mem_flatMap] at hp
      obtain ⟨q, hq, hmem⟩ := hp
      rcases List.mem_map.mp hmem with ⟨perm, hperm, rfl⟩
      have hrem : q.2.length + 1 = l.length :=
        @picks_rem_length q.1 q.2 l (by simpa using hq)
      have h2 : perm.Perm q.2 := ih (by omega) hperm
      exact (h2.cons q.1).trans (@picks_cons_perm q.1 q.2 l (by simpa using hq))

theorem getEdgePermutationsAux_mem_of_perm {fuel : Nat} :
    ∀ {l p : List Route}, l.length ≤ fuel →
      p.Perm l → p ∈ getEdgePermutationsAux fuel l := by
  induction fuel with
  | zero =>
    intro l p hl hp
    have h0 : l.length = 0 := by omega
    rw [List.length_eq_zero] at h0
    subst h0
    rw [List.perm_nil] at hp
    simp [hp, getEdgePermutationsAux]
  | succ fuel ih =>
    intro l p hl hp
    by_cases h1 : l.length ≤ 1
    · interval_cases h : l.length
      · rw [List.length_eq_zero] at h
        subst h
        rw [List.perm_nil] at hp
        simp [hp, getEdgePermutationsAux]
      · rw [List.length_eq_one] at h
        obtain ⟨a, rfl⟩ := h
        rw [List.perm_singleton] at hp
        simp [hp, getEdgePermutationsAux]
    · cases p with
      | nil =>
        have := hp.length_eq
        simp at this
        omega
      | cons c p' =>
        rw [List.cons_perm_iff_perm_erase] at hp
        obtain ⟨hc, hp'⟩ := hp
        have hpick := mem_picks_of_mem hc
        have hrem : (l.erase c).length + 1 = l.length :=
          @picks_rem_length c (l.erase c) l hpick
        rw [getEdgePermutationsAux, if_neg h1, List.mem_flatMap]
        exact ⟨(c, l.erase c), hpick,
          List.mem_map.mpr ⟨p', ih (l := l.erase c) (by omega) hp', rfl⟩⟩

theorem getEdgePermutations_length (l : List Route) :
    (getEdgePermutations l).length = l.length.factorial :=
  getEdgePermutationsAux_length le_rfl

theorem mem_getEdgePermutations {l p : List Route} :
    p ∈ getEdgePermutations l ↔ p.Perm l :=
  ⟨getEdgePermutationsAux_mem_perm le_rfl, getEdgePermutationsAux_mem_of_perm le_rfl⟩

theorem jsInsert_perm (cmp : Route → Route → ℚ) (a : Route) (l : List Route) :
    (jsInsert cmp a l).Perm (a :: l) := by
  induction l with
  | nil => exact List.Perm.refl _
  | cons b rest ih =>
    rw [jsInsert]
    split_ifs
    · exact List.Perm.refl _
    · exact (ih.cons b).trans (List.Perm.swap a b rest)

theorem jsSort_perm (cmp : Route → Route → ℚ) (l : List Route) :
    (jsSort cmp l).Perm l := by
  induction l with
  | nil => exact List.Perm.refl _
  | cons a rest ih =>
    exact (jsInsert_perm cmp a (jsSort cmp rest)).trans (ih.cons a)

theorem generateSmartEdgeOrders_perm (rnd : Nat → Route → Route → ℚ)
    (edges : List Route) :
    ∀ p ∈ generateSmartEdgeOrders rnd edges, p.Perm edges := by
  intro p hp
  simp only [generateSmartEdgeOrders, List.cons_append, List.nil_append,
    List.mem_cons, List.mem_map, List.mem_range] at hp
  rcases hp with rfl | rfl | ⟨i, _, rfl⟩ <;> exact jsSort_perm _ _

theorem generateSmartEdgeOrders_length (rnd : Nat → Route → Route → ℚ)
    (edges : List Route) :
    (generateSmartEdgeOrders rnd edges).length = 12 := by
  simp [generateSmartEdgeOrders]

theorem getAllEdgePermutations_perm (rnd : Nat → Route → Route → ℚ)
    (edges : List Route) :
    ∀ p ∈ getAllEdgePermutations rnd edges, p.Perm edges := by
  intro p hp
  unfold getAllEdgePermutations at hp
  split_ifs at hp
  · simp only [List.mem_singleton] at hp
    subst hp; exact List.Perm.refl _
  · exact generateSmartEdgeOrders_perm rnd edges p hp
  · exact mem_getEdgePermutations.mp hp

/-- C7: the edge-order generator.  With at most one edge it returns the
single trivial ordering; with two to eight edges it returns exactly
`|edges|!` orderings which are precisely the permutations of the edge list;
and in every regime (including the twelve heuristic orderings produced
beyond eight edges) each returned ordering contains each input edge exactly
once. -/
theorem C7_edge_order_generator_spec (rnd : Nat → Route → Route → ℚ)
    (edges : List Route) (hnd : (edges.map Route.id).Nodup) :
    (edges.length ≤ 1 → getAllEdgePermutations rnd edges = [edges]) ∧
    (2 ≤ edges.length → edges.length ≤ 8 →
      (getAllEdgePermutations rnd edges).length = edges.length.factorial ∧
      (∀ p, p ∈ getAllEdgePermutations rnd edges ↔ p.Perm edges)) ∧
    (∀ p ∈ getAllEdgePermutations rnd edges, ∀ e ∈ edges, p.count e = 1) := by
  have hnodup : edges.Nodup := hnd.of_map
  refine ⟨?_, ?_, ?_⟩
  · intro h1
    simp [getAllEdgePermutations, h1]
  · intro h2 h8
    have hcase : getAllEdgePermutations rnd edges = getEdgePermutations edges := by
      unfold getAllEdgePermutations
      rw [if_neg (by omega), if_neg (by omega)]
    rw [hcase]
    exact ⟨getEdgePermutations_length edges, fun p => mem_getEdgePermutations⟩
  · intro p hp e he
    have hperm := getAllEdgePermutations_perm rnd edges p hp
    rw [hperm.count_eq]
    exact List.count_eq_one_of_mem hnodup he

/-- Witness for C7 at a concrete input: two distinct edges, the constant
comparator oracle. -/
theorem C7_edge_order_generator_spec_witness :
    ((([edgeAB, edgeCD] : List Route).map Route.id).Nodup) ∧
    (2 ≤ ([edgeAB, edgeCD] : List Route).length →
      ([edgeAB, edgeCD] : List Route).length ≤ 8 →
      (getAllEdgePermutations rndZero [edgeAB, edgeCD]).length =
        ([edgeAB, edgeCD] : List Route).length.factorial ∧
      (∀ p, p ∈ getAllEdgePermutations rndZero [edgeAB, edgeCD] ↔
        p.Perm [edgeAB, edgeCD])) := by
  have h := C7_edge_order_generator_spec rndZero [edgeAB, edgeCD] (by decide)
  exact ⟨by decide, h.2.1⟩

/-!
## C1 — the exhaustive regime computes the cross-product minimum
-/

theorem ite_lt_min (a b : WithTop ℚ) : (if a < b then a else b) = min a b := by
  split_ifs with h
  · exact (min_eq_left h.le).symm
  · exact (min_eq_right (not_lt.mp h)).symm

theorem foldr_min_le_of_mem {x : WithTop ℚ} :
    ∀ {l : List (WithTop ℚ)}, x ∈ l → l.foldr min ⊤ ≤ x := by
  intro l hx
  induction l with
  | nil => cases hx
  | cons a l ih =>
    rcases List.mem_cons.mp hx with rfl | h
    · exact min_le_left _ _
    · exact le_trans (min_le_right _ _) (ih h)

theorem foldr_min_init (l : List (WithTop ℚ)) (b : WithTop ℚ) :
    l.foldr min b = min (l.foldr min ⊤) b := by
  induction l with
  | nil => simp [min_eq_right le_top]
  | cons a l ih => rw [List.foldr_cons, ih, List.foldr_cons, min_assoc]

theorem foldr_min_append (l1 l2 : List (WithTop ℚ)) :
    (l1 ++ l2).foldr min ⊤ = min (l1.foldr min ⊤) (l2.foldr min ⊤) := by
  rw [List.foldr_append, foldr_min_init]

theorem foldr_min_flatMap {α : Type} (S : List α) (f : α → List (WithTop ℚ)) :
    (S.flatMap f).foldr min ⊤ =
      (S.map (fun s => (f s).foldr min ⊤)).foldr min ⊤ := by
  induction S with
  | nil => rfl
  | cons x xs ih =>
    rw [List.flatMap_cons, foldr_min_append, ih, List.map_cons, List.foldr_cons]

theorem foldl_min_snd {α : Type}
    (step : List Nat × WithTop ℚ → α → List Nat × WithTop ℚ)
    (f : α → List Nat) (g : α → WithTop ℚ)
    (hstep : ∀ acc x, step acc x = if g x < acc.2 then (f x, g x) else acc) :
    ∀ (l : List α) (acc : List Nat × WithTop ℚ),
      (l.foldl step acc).2 = min acc.2 ((l.map g).foldr min ⊤) := by
  intro l
  induction l with
  | nil => intro acc; simp [min_eq_left le_top]
  | cons x xs ih =>
    intro acc
    rw [List.foldl_cons, ih (step acc x), hstep, List.map_cons, List.foldr_cons]
    split_ifs with h
    · dsimp only
      rw [← min_assoc, min_eq_right h.le]
    · rw [← min_assoc, min_eq_left (not_lt.mp h)]

theorem foldl_min_fst {α : Type}
    (step : List Nat × WithTop ℚ → α → List Nat × WithTop ℚ)
    (f : α → List Nat) (g : α → WithTop ℚ)
    (hstep : ∀ acc x, step acc x = if g x < acc.2 then (f x, g x) else acc) :
    ∀ (l : List α) (acc : List Nat × WithTop ℚ),
      l.foldl step acc = acc ∨ ∃ x ∈ l, l.foldl step acc = (f x, g x) := by
  intro l
  induction l with
  | nil => intro acc; exact Or.inl rfl
  | cons x xs ih =>
    intro acc
    rw [List.foldl_cons, hstep]
    split_ifs with h
    · rcases ih (f x, g x) with h1 | ⟨y, hy, h2⟩
      · exact Or.inr ⟨x, List.mem_cons_self x xs, h1⟩
      · exact Or.inr ⟨y, List.mem_cons_of_mem _ hy, h2⟩
    · rcases ih acc with h1 | ⟨y, hy, h2⟩
      · exact Or.inl h1
      · exact Or.inr ⟨y, List.mem_cons_of_mem _ hy, h2⟩

theorem hopFold_fst_extends (routes : List Route) :
    ∀ (rest : List Nat) (prev : Nat) (acc : List Nat × ℚ),
      ∃ l, (hopFold routes prev rest acc).1 = acc.1 ++ l := by
  intro rest
  induction rest with
  | nil => intro prev acc; exact ⟨[], by simp [hopFold]⟩
  | cons x xs ih =>
    intro prev acc
    obtain ⟨l, hl⟩ :=
      ih x (acc.1 ++ [x], acc.2 + getDistanceBetweenNodes routes prev x)
    exact ⟨x :: l, by rw [hopFold, hl]; simp⟩

theorem applyHops_path_extends (routes : List Route) (p : List Nat)
    (st : TravState) : ∃ l, (applyHops routes p st).path = st.path ++ l := by
  cases p with
  | nil => exact ⟨[], by simp [applyHops]⟩
  | cons x rest =>
    obtain ⟨l, hl⟩ := hopFold_fst_extends routes rest x (st.path, st.totalDistance)
    exact ⟨l, by simp [applyHops, hl]⟩

theorem stitchStep_path_extends (nodes : List Node) (routes : List Route)
    (e : Route) (st : TravState) :
    ∃ l, (stitchStep nodes routes e st).path = st.path ++ l := by
  unfold stitchStep
  split_ifs with h
  · cases hcp : choosePath (findShortestPath nodes routes st.currentNode e.startNodeId)
        (findShortestPath nodes routes st.currentNode e.endNodeId) with
    | none => exact ⟨[], by simp⟩
    | some p =>
      dsimp only
      split_ifs with hlen
      · exact applyHops_path_extends routes p.1 st
      · exact ⟨[], by simp⟩
  · exact ⟨[], by simp⟩

theorem closeWalk_path_extends (nodes : List Node) (routes : List Route)
    (startNodeId : Nat) (st : TravState) :
    ∃ l, (closeWalk nodes routes startNodeId st).path = st.path ++ l := by
  unfold closeWalk
  cases hcp : findShortestPath nodes routes st.currentNode startNodeId with
  | none => exact ⟨[], by simp⟩
  | some p =>
    dsimp only
    split_ifs with hlen
    · exact applyHops_path_extends routes p.1 st
    · exact ⟨[], by simp⟩

theorem traverseGo_path_extends (nodes : List Node) (routes : List Route) :
    ∀ (ord : List Route) (st : TravState),
      ∃ l, (traverseGo nodes routes ord st).path = st.path ++ l := by
  intro ord
  induction ord with
  | nil => intro st; exact ⟨[], by simp [traverseGo]⟩
  | cons e rest ih =>
    intro st
    by_cases hc : e.id ∈ st.edgesCovered
    · rw [traverseGo, if_pos hc]
      exact ih st
    · rw [traverseGo, if_neg hc]
      obtain ⟨l0, hl0⟩ := stitchStep_path_extends nodes routes e st
      obtain ⟨l1, hl1⟩ := ih
        ⟨(stitchStep nodes routes e st).path ++
          [if (stitchStep nodes routes e st).currentNode = e.startNodeId
           then e.endNodeId else e.startNodeId],
         if (stitchStep nodes routes e st).currentNode = e.startNodeId
         then e.endNodeId else e.startNodeId,
         (stitchStep nodes routes e st).totalDistance + e.distance,
         e.id :: (stitchStep nodes routes e st).edgesCovered⟩
      refine ⟨l0 ++
        ([if (stitchStep nodes routes e st).currentNode = e.startNodeId
          then e.endNodeId else e.startNodeId] ++ l1), ?_⟩
      rw [hl1]
      simp [hl0]

/-- The walk returned by the builder for a given (start, ordering) pair. -/
def builderPath (nodes : List Node) (routes : List Route) (s : Nat)
    (ord : List Route) : List Nat :=
  match traverseEdgesInOrder nodes routes s ord with
  | some r => r.path
  | none => []

/-- The builder's total distance for a given (start, ordering) pair, with
`⊤` standing for a failed attempt (which, in this code, never occurs). -/
def builderDistance (nodes : List Node) (routes : List Route) (s : Nat)
    (ord : List Route) : WithTop ℚ :=
  match traverseEdgesInOrder nodes routes s ord with
  | some r => (r.totalDistance : WithTop ℚ)
  | none => ⊤

theorem traverseEdgesInOrder_eq_some (nodes : List Node) (routes : List Route)
    (s : Nat) (ord : List Route) :
    traverseEdgesInOrder nodes routes s ord =
      some ⟨(closeWalk nodes routes s
              (traverseGo nodes routes ord ⟨[s], s, 0, []⟩)).path,
            (closeWalk nodes routes s
              (traverseGo nodes routes ord ⟨[s], s, 0, []⟩)).totalDistance⟩ := rfl

theorem builderPath_ne_nil (nodes : List Node) (routes : List Route) (s : Nat)
    (ord : List Route) : builderPath nodes routes s ord ≠ [] := by
  rw [builderPath, traverseEdgesInOrder_eq_some]
  obtain ⟨l1, hl1⟩ := traverseGo_path_extends nodes routes ord ⟨[s], s, 0, []⟩
  obtain ⟨l2, hl2⟩ :=
    closeWalk_path_extends nodes routes s (traverseGo nodes routes ord ⟨[s], s, 0, []⟩)
  simp [hl2, hl1]

theorem builderDistance_lt_top (nodes : List Node) (routes : List Route)
    (s : Nat) (ord : List Route) : builderDistance nodes routes s ord < ⊤ := by
  rw [builderDistance, traverseEdgesInOrder_eq_some]
  exact WithTop.coe_lt_top _

theorem getAllEdgePermutations_ne_nil (rnd : Nat → Route → Route → ℚ)
    (edges : List Route) : getAllEdgePermutations rnd edges ≠ [] := by
  unfold getAllEdgePermutations
  split_ifs with h1 h2
  · simp
  · simp [generateSmartEdgeOrders]
  · intro h
    have hlen := getEdgePermutations_length edges
    rw [h] at hlen
    simp at hlen
    have := Nat.factorial_pos edges.length
    omega

theorem getAllEdgePermutations_of_le8 (rnd : Nat → Route → Route → ℚ)
    (edges : List Route) (h8 : edges.length ≤ 8) :
    getAllEdgePermutations rnd edges = getEdgePermutations edges := by
  unfold getAllEdgePermutations
  split_ifs with h1 h2
  · rcases Nat.le_one_iff_eq_zero_or_eq_one.mp h1 with h | h
    · rw [getEdgePermutations, h]
      rfl
    · rw [getEdgePermutations, h]
      simp [getEdgePermutationsAux, h]
  · omega
  · rfl

theorem optStep_eq (nodes : List Node) (routes : List Route) (s : Nat)
    (acc : List Nat × WithTop ℚ) (ord : List Route) :
    optStep nodes routes s acc ord =
      if builderDistance nodes routes s ord < acc.2
      then (builderPath nodes routes s ord, builderDistance nodes routes s ord)
      else acc := by
  simp only [optStep, builderPath, builderDistance, traverseEdgesInOrder_eq_some]

theorem findOptimalPathFromStart_eq (nodes : List Node) (routes : List Route)
    (rnd : Nat → Route → Route → ℚ) (s : Nat) :
    ∃ p, p ≠ [] ∧ findOptimalPathFromStart nodes routes rnd s =
      some (p, ((getAllEdgePermutations rnd routes).map
        (builderDistance nodes routes s)).foldr min ⊤) := by
  have hstep := optStep_eq nodes routes s
  have hLne : getAllEdgePermutations rnd routes ≠ [] :=
    getAllEdgePermutations_ne_nil rnd routes
  obtain ⟨o, rest, hcons⟩ : ∃ o rest, getAllEdgePermutations rnd routes = o :: rest := by
    cases hc : getAllEdgePermutations rnd routes with
    | nil => exact absurd hc hLne
    | cons o rest => exact ⟨o, rest, rfl⟩
  have hmem : builderDistance nodes routes s o ∈
      (getAllEdgePermutations rnd routes).map (builderDistance nodes routes s) := by
    rw [hcons]
    exact List.mem_cons_self _ _
  have hlt : ((getAllEdgePermutations rnd routes).map
      (builderDistance nodes routes s)).foldr min ⊤ < ⊤ :=
    lt_of_le_of_lt (foldr_min_le_of_mem hmem) (builderDistance_lt_top nodes routes s o)
  have hsnd := foldl_min_snd (optStep nodes routes s)
    (builderPath nodes routes s) (builderDistance nodes routes s) hstep
    (getAllEdgePermutations rnd routes) (([], ⊤))
  rw [min_eq_right le_top] at hsnd
  simp only [findOptimalPathFromStart]
  rcases foldl_min_fst (optStep nodes routes s)
      (builderPath nodes routes s) (builderDistance nodes routes s) hstep
      (getAllEdgePermutations rnd routes) (([], ⊤)) with hF | ⟨ord, _, hF⟩
  · rw [hF] at hsnd
    exact absurd (hsnd ▸ hlt) (lt_irrefl ⊤)
  · have hp : builderPath nodes routes s ord ≠ [] := builderPath_ne_nil nodes routes s ord
    have hcond : 0 < ((getAllEdgePermutations rnd routes).foldl
        (optStep nodes routes s) ([], ⊤)).1.length := by
      rw [hF]
      exact List.length_pos.mpr hp
    rw [if_pos hcond]
    refine ⟨((getAllEdgePermutations rnd routes).foldl
      (optStep nodes routes s) ([], ⊤)).1, by rw [hF]; exact hp, ?_⟩
    rw [← hsnd]

/-- The accumulated candidate produced for one start node by the driver's
loop: the best-walk record of that start, or the neutral pair when the start
produced no walk. -/
def startBest (nodes : List Node) (routes : List Route)
    (rnd : Nat → Route → Route → ℚ) (n : Node) : List Nat × WithTop ℚ :=
  match findOptimalPathFromStart nodes routes rnd n.id with
  | some r => r
  | none => ([], ⊤)

theorem globalStep_eq (nodes : List Node) (routes : List Route)
    (rnd : Nat → Route → Route → ℚ) (acc : List Nat × WithTop ℚ) (n : Node) :
    globalStep nodes routes rnd acc n =
      if (startBest nodes routes rnd n).2 < acc.2
      then ((startBest nodes routes rnd n).1, (startBest nodes routes rnd n).2)
      else acc := by
  rw [globalStep, startBest]
  cases findOptimalPathFromStart nodes routes rnd n.id with
  | none =>
    dsimp only
    rw [if_neg (by exact not_top_lt)]
  | some r =>
    dsimp only

/-- The list of walk-builder total distances over the full cross product of
start nodes and full edge-list permutations. -/
def bruteForceDistances (nodes : List Node) (routes : List Route) :
    List (WithTop ℚ) :=
  (nodeIds nodes).flatMap (fun s =>
    (getEdgePermutations routes).map (builderDistance nodes routes s))

/-- The brute-force reference: the minimum walk-builder total distance over
every (start node, edge permutation) pair. -/
def bruteForceMin (nodes : List Node) (routes : List Route) : WithTop ℚ :=
  (bruteForceDistances nodes routes).foldr min ⊤

/-- The triangle scenario from the specification: three nodes, three edges
`a–b` (10), `b–c` (10), `a–c` (14). -/
def triNodes : List Node := [nodeA, nodeB, nodeC]

/-- The triangle scenario's edges. -/
def triRoutes : List Route := [⟨1, 1, 2, 10⟩, ⟨2, 2, 3, 10⟩, ⟨3, 1, 3, 14⟩]

/-- C1: in the exhaustive regime (a valid graph with at most eight edges)
the distance reported by the optimizer equals the minimum, over the full
cross product of every node taken as start and every permutation of the
edge list, of the walk builder's total distance for that pair. -/
theorem C1_optimizer_reports_cross_product_minimum
    (nodes : List Node) (routes : List Route) (rnd : Nat → Route → Route → ℚ)
    (h1 : 1 ≤ routes.length) (h8 : routes.length ≤ 8)
    (_hval : ∀ e ∈ routes,
      e.startNodeId ∈ nodeIds nodes ∧ e.endNodeId ∈ nodeIds nodes)
    (_hw : ∀ e ∈ routes, 0 ≤ e.distance) :
    ∃ p, optimizeRoute nodes routes rnd =
      .result p (bruteForceMin nodes routes) := by
  have hstep := globalStep_eq nodes routes rnd
  have hsnd := foldl_min_snd (globalStep nodes routes rnd)
    (fun n => (startBest nodes routes rnd n).1)
    (fun n => (startBest nodes routes rnd n).2) hstep nodes (([], ⊤))
  rw [min_eq_right le_top] at hsnd
  have hsb : ∀ n : Node, (startBest nodes routes rnd n).2 =
      ((getAllEdgePermutations rnd routes).map
        (builderDistance nodes routes n.id)).foldr min ⊤ := by
    intro n
    obtain ⟨p, _, heq⟩ := findOptimalPathFromStart_eq nodes routes rnd n.id
    rw [startBest, heq]
  have hmap : nodes.map (fun n => (startBest nodes routes rnd n).2) =
      (nodeIds nodes).map (fun s =>
        ((getEdgePermutations routes).map
          (builderDistance nodes routes s)).foldr min ⊤) := by
    rw [nodeIds, List.map_map]
    refine List.map_congr_left ?_
    intro n _
    rw [hsb n, getAllEdgePermutations_of_le8 rnd routes h8]
    rfl
  have hfinal : (nodes.foldl (globalStep nodes routes rnd) (([], ⊤))).2 =
      bruteForceMin nodes routes := by
    rw [hsnd, hmap, bruteForceMin, bruteForceDistances, foldr_min_flatMap]
  refine ⟨(nodes.foldl (globalStep nodes routes rnd) (([], ⊤))).1, ?_⟩
  simp only [optimizeRoute]
  rw [if_neg (by omega : ¬ routes.length < 1),
    if_neg (by omega : ¬ 12 < routes.length), hfinal]

/-- Witness for C1 at the triangle scenario with the constant comparator
oracle. -/
theorem C1_optimizer_reports_cross_product_minimum_witness :
    (1 ≤ triRoutes.length ∧ triRoutes.length ≤ 8 ∧
      (∀ e ∈ triRoutes,
        e.startNodeId ∈ nodeIds triNodes ∧ e.endNodeId ∈ nodeIds triNodes) ∧
      (∀ e ∈ triRoutes, 0 ≤ e.distance)) ∧
    ∃ p, optimizeRoute triNodes triRoutes rndZero =
      .result p (bruteForceMin triNodes triRoutes) :=
  ⟨⟨by decide, by decide, by decide, by decide⟩,
   C1_optimizer_reports_cross_product_minimum triNodes triRoutes rndZero
     (by decide) (by decide) (by decide) (by decide)⟩

/-!
## C10 — the walk distance dominates the distinct-edge weight sum
-/

/-- The sum of the weights of the distinct edges of an ordering (first
occurrence per edge id, mirroring the covered-edge bookkeeping), starting
from an already-covered id set. -/
def distinctEdgeSum : List Route → List Nat → ℚ
  | [], _ => 0
  | e :: rest, covered =>
    if e.id ∈ covered then distinctEdgeSum rest covered
    else e.distance + distinctEdgeSum rest (e.id :: covered)

theorem getDistanceBetweenNodes_nonneg {routes : List Route}
    (hw : ∀ e ∈ routes, 0 ≤ e.distance) (a b : Nat) :
    0 ≤ getDistanceBetweenNodes routes a b := by
  unfold getDistanceBetweenNodes
  cases hfind : routes.find? (fun r =>
      (r.startNodeId = a && r.endNodeId = b) ||
      (r.startNodeId = b && r.endNodeId = a)) with
  | none => exact le_refl 0
  | some r => exact hw r (List.mem_of_find?_eq_some hfind)

theorem hopFold_dist_mono {routes : List Route}
    (hw : ∀ e ∈ routes, 0 ≤ e.distance) :
    ∀ (rest : List Nat) (prev : Nat) (acc : List Nat × ℚ),
      acc.2 ≤ (hopFold routes prev rest acc).2.1 := by
  intro rest
  induction rest with
  | nil => intro prev acc; exact le_refl _
  | cons x xs ih =>
    intro prev acc
    rw [hopFold]
    refine le_trans ?_ (ih x (acc.1 ++ [x], acc.2 + getDistanceBetweenNodes routes prev x))
    have := getDistanceBetweenNodes_nonneg hw prev x
    simp only
    linarith

theorem applyHops_dist_mono {routes : List Route}
    (hw : ∀ e ∈ routes, 0 ≤ e.distance) (p : List Nat) (st : TravState) :
    st.totalDistance ≤ (applyHops routes p st).totalDistance := by
  cases p with
  | nil => exact le_refl _
  | cons x rest =>
    simpa [applyHops] using
      hopFold_dist_mono hw rest x (st.path, st.totalDistance)

theorem applyHops_covered_eq (routes : List Route) (p : List Nat)
    (st : TravState) : (applyHops routes p st).edgesCovered = st.edgesCovered := by
  cases p <;> rfl

theorem stitchStep_dist_mono {nodes : List Node} {routes : List Route}
    (hw : ∀ e ∈ routes, 0 ≤ e.distance) (e : Route) (st : TravState) :
    st.totalDistance ≤ (stitchStep nodes routes e st).totalDistance := by
  unfold stitchStep
  split_ifs with h
  · cases choosePath (findShortestPath nodes routes st.currentNode e.startNodeId)
        (findShortestPath nodes routes st.currentNode e.endNodeId) with
    | none => exact le_refl _
    | some p =>
      dsimp only
      split_ifs with hlen
      · exact applyHops_dist_mono hw p.1 st
      · exact le_refl _
  · exact le_refl _

theorem stitchStep_covered_eq (nodes : List Node) (routes : List Route)
    (e : Route) (st : TravState) :
    (stitchStep nodes routes e st).edgesCovered = st.edgesCovered := by
  unfold stitchStep
  split_ifs with h
  · cases choosePath (findShortestPath nodes routes st.currentNode e.startNodeId)
        (findShortestPath nodes routes st.currentNode e.endNodeId) with
    | none => rfl
    | some p =>
      dsimp only
      split_ifs with hlen
      · exact applyHops_covered_eq routes p.1 st
      · rfl
  · rfl

theorem closeWalk_dist_mono {nodes : List Node} {routes : List Route}
    (hw : ∀ e ∈ routes, 0 ≤ e.distance) (startNodeId : Nat) (st : TravState) :
    st.totalDistance ≤ (closeWalk nodes routes startNodeId st).totalDistance := by
  unfold closeWalk
  cases findShortestPath nodes routes st.currentNode startNodeId with
  | none => exact le_refl _
  | some p =>
    dsimp only
    split_ifs with hlen
    · exact applyHops_dist_mono hw p.1 st
    · exact le_refl _

theorem traverseGo_dist_ge {nodes : List Node} {routes : List Route}
    (hw : ∀ e ∈ routes, 0 ≤ e.distance) :
    ∀ (ord : List Route) (st : TravState),
      st.totalDistance + distinctEdgeSum ord st.edgesCovered ≤
        (traverseGo nodes routes ord st).totalDistance := by
  intro ord
  induction ord with
  | nil => intro st; simp [traverseGo, distinctEdgeSum]
  | cons e rest ih =>
    intro st
    by_cases hc : e.id ∈ st.edgesCovered
    · rw [traverseGo, if_pos hc, distinctEdgeSum, if_pos hc]
      exact ih st
    · rw [traverseGo, if_neg hc, distinctEdgeSum, if_neg hc]
      refine le_trans ?_ (ih _)
      have hmono := @stitchStep_dist_mono nodes routes hw e st
      have hcov := stitchStep_covered_eq nodes routes e st
      simp only [hcov]
      linarith

/-- C10: with non-negative edge weights, any walk the builder returns has
total distance at least the sum of the weights of the distinct edges of the
ordering — each distinct edge's weight is accumulated exactly once via the
covered-id bookkeeping, and every connecting hop only adds. -/
theorem C10_walk_distance_ge_distinct_edge_sum
    (nodes : List Node) (routes : List Route)
    (hw : ∀ e ∈ routes, 0 ≤ e.distance) (s : Nat) (ord : List Route)
    (r : WalkResult)
    (hr : traverseEdgesInOrder nodes routes s ord = some r) :
    distinctEdgeSum ord [] ≤ r.totalDistance := by
  rw [traverseEdgesInOrder_eq_some] at hr
  obtain rfl := Option.some.inj hr
  have h1 := @traverseGo_dist_ge nodes routes hw ord ⟨[s], s, 0, []⟩
  have h2 := @closeWalk_dist_mono nodes routes hw s
    (traverseGo nodes routes ord ⟨[s], s, 0, []⟩)
  simp only at h1
  linarith

/-- Witness for C10: the two-node, one-edge graph with weight 5. -/
theorem C10_walk_distance_ge_distinct_edge_sum_witness :
    (∀ e ∈ ([⟨7, 1, 2, 5⟩] : List Route), 0 ≤ e.distance) ∧
    distinctEdgeSum [⟨7, 1, 2, 5⟩] [] ≤ (⟨[1, 2, 1], 10⟩ : WalkResult).totalDistance :=
  ⟨by decide,
   C10_walk_distance_ge_distinct_edge_sum [nodeA, nodeB] [⟨7, 1, 2, 5⟩]
     (by decide) 1 [⟨7, 1, 2, 5⟩] ⟨[1, 2, 1], 10⟩ (by decide)⟩

/-!
## C8 — the two-node single-edge boundary case
-/

theorem findShortestPath_two_nodes (a b : Node) (e : Route) (hab : a.id ≠ b.id)
    (hor : (e.startNodeId = a.id ∧ e.endNodeId = b.id) ∨
           (e.startNodeId = b.id ∧ e.endNodeId = a.id)) :
    ∀ x y : Nat, ((x = a.id ∧ y = b.id) ∨ (x = b.id ∧ y = a.id)) →
      findShortestPath [a, b] [e] x y = some ([x, y], e.distance) := by
  intro x y hxy
  have hab' : b.id ≠ a.id := Ne.symm hab
  rcases hxy with ⟨rfl, rfl⟩ | ⟨rfl, rfl⟩ <;>
    rcases hor with ⟨h1, h2⟩ | ⟨h1, h2⟩ <;>
      simp [findShortestPath, nodeIds, dijkstraLoop, findMinNode, relaxAll,
        relaxOne, neighborOf, reconstructPath, List.erase_cons, h1, h2, hab,
        hab', WithTop.coe_lt_top]

theorem traverse_two_nodes (a b : Node) (e : Route) (hab : a.id ≠ b.id)
    (hor : (e.startNodeId = a.id ∧ e.endNodeId = b.id) ∨
           (e.startNodeId = b.id ∧ e.endNodeId = a.id)) :
    ∀ x y : Nat, ((x = a.id ∧ y = b.id) ∨ (x = b.id ∧ y = a.id)) →
      traverseEdgesInOrder [a, b] [e] x [e] =
        some ⟨[x, y, x], e.distance + e.distance⟩ := by
  intro x y hxy
  have hab' : b.id ≠ a.id := Ne.symm hab
  have hyx : findShortestPath [a, b] [e] y x = some ([y, x], e.distance) := by
    apply findShortestPath_two_nodes a b e hab hor
    tauto
  rcases hxy with ⟨rfl, rfl⟩ | ⟨rfl, rfl⟩ <;>
    rcases hor with ⟨h1, h2⟩ | ⟨h1, h2⟩ <;>
      simp [traverseEdgesInOrder, traverseGo, stitchStep, closeWalk, applyHops,
        hopFold, getDistanceBetweenNodes, hyx, h1, h2, hab, hab']

theorem findOptimal_two_nodes (a b : Node) (e : Route)
    (rnd : Nat → Route → Route → ℚ) (hab : a.id ≠ b.id)
    (hor : (e.startNodeId = a.id ∧ e.endNodeId = b.id) ∨
           (e.startNodeId = b.id ∧ e.endNodeId = a.id)) :
    ∀ x y : Nat, ((x = a.id ∧ y = b.id) ∨ (x = b.id ∧ y = a.id)) →
      findOptimalPathFromStart [a, b] [e] rnd x =
        some ([x, y, x], ((e.distance + e.distance : ℚ) : WithTop ℚ)) := by
  intro x y hxy
  have htr := traverse_two_nodes a b e hab hor x y hxy
  simp [findOptimalPathFromStart, getAllEdgePermutations, optStep, htr,
    WithTop.coe_lt_top, WithTop.add_lt_top]

/-- C8: a graph of exactly two nodes and one edge joining them yields the
closed walk start–other–start with total distance twice the edge weight;
the code starts from the first node of the node list. -/
theorem C8_single_edge_walk (a b : Node) (e : Route)
    (rnd : Nat → Route → Route → ℚ) (hab : a.id ≠ b.id)
    (hor : (e.startNodeId = a.id ∧ e.endNodeId = b.id) ∨
           (e.startNodeId = b.id ∧ e.endNodeId = a.id)) :
    optimizeRoute [a, b] [e] rnd =
      .result [a.id, b.id, a.id] ((2 * e.distance : ℚ) : WithTop ℚ) := by
  have hoa := findOptimal_two_nodes a b e rnd hab hor a.id b.id (Or.inl ⟨rfl, rfl⟩)
  have hob := findOptimal_two_nodes a b e rnd hab hor b.id a.id (Or.inr ⟨rfl, rfl⟩)
  have key : optimizeRoute [a, b] [e] rnd =
      .result [a.id, b.id, a.id] ((e.distance + e.distance : ℚ) : WithTop ℚ) := by
    rw [optimizeRoute, if_neg (by norm_num : ¬ ([e] : List Route).length < 1),
      if_neg (by norm_num : ¬ 12 < ([e] : List Route).length)]
    simp [globalStep, hoa, hob, WithTop.coe_lt_top, WithTop.add_lt_top]
  rw [key, two_mul]

/-- Witness for C8 at a concrete instance: nodes 1 and 2, one edge of
weight 5. -/
theorem C8_single_edge_walk_witness :
    (nodeA.id ≠ nodeB.id ∧
      ((⟨7, 1, 2, 5⟩ : Route).startNodeId = nodeA.id ∧
       (⟨7, 1, 2, 5⟩ : Route).endNodeId = nodeB.id)) ∧
    optimizeRoute [nodeA, nodeB] [⟨7, 1, 2, 5⟩] rndZero =
      .result [nodeA.id, nodeB.id, nodeA.id]
        ((2 * (⟨7, 1, 2, 5⟩ : Route).distance : ℚ) : WithTop ℚ) :=
  ⟨⟨by decide, by decide, by decide⟩,
   C8_single_edge_walk nodeA nodeB ⟨7, 1, 2, 5⟩ rndZero (by decide)
     (Or.inl ⟨by decide, by decide⟩)⟩

/-!
## C6, C9 — correctness of the shortest-path resolver
-/

/-- One undirected hop: some edge of weight `w` joins `x` to `y`. -/
def stepTo (routes : List Route) (x y : Nat) (w : ℚ) : Prop :=
  ∃ e ∈ routes, w = e.distance ∧
    ((e.startNodeId = x ∧ e.endNodeId = y) ∨ (e.startNodeId = y ∧ e.endNodeId = x))

theorem stepTo_joined {routes : List Route} {x y : Nat} {w : ℚ}
    (h : stepTo routes x y w) : joined routes x y := by
  obtain ⟨e, he, _, hor⟩ := h
  exact ⟨e, he, hor⟩

theorem reach_nonneg {routes : List Route} (hw : ∀ e ∈ routes, 0 ≤ e.distance)
    {s x : Nat} {c : ℚ} (h : Reach routes s x c) : 0 ≤ c := by
  induction h with
  | refl => exact le_refl 0
  | step e he _ _ ih => exact add_nonneg ih (hw e he)

theorem reach_step' {routes : List Route} {s x y : Nat} {c w : ℚ}
    (hr : Reach routes s x c) (hs : stepTo routes x y w) :
    Reach routes s y (c + w) := by
  obtain ⟨e, he, rfl, hor⟩ := hs
  exact Reach.step e he hr hor

theorem reach_mem_of_ne {routes : List Route} {allIds : List Nat}
    (hval : ∀ e ∈ routes, e.startNodeId ∈ allIds ∧ e.endNodeId ∈ allIds)
    {s t : Nat} {c : ℚ} (h : Reach routes s t c) (hst : t ≠ s) : t ∈ allIds := by
  cases h with
  | refl => exact absurd rfl hst
  | step e he _ hor =>
    rcases hor with ⟨_, h2⟩ | ⟨h1, _⟩
    · exact h2 ▸ (hval e he).2
    · exact h1 ▸ (hval e he).1

/-- Chains of the predecessor map: from `x`, following `prev` reaches `none`
within `n` steps, and every intermediate node is already visited. -/
def GoodChain (prev : Nat → Option Nat) (unvisited : List Nat) : Nat → Nat → Prop
  | _, 0 => False
  | x, n + 1 =>
    match prev x with
    | none => True
    | some y => y ∉ unvisited ∧ GoodChain prev unvisited y n

theorem GoodChain.mono {prev : Nat → Option Nat} {unvisited : List Nat} :
    ∀ {n m x}, GoodChain prev unvisited x n → n ≤ m →
      GoodChain prev unvisited x m := by
  intro n
  induction n with
  | zero => intro m x h; exact absurd h (by simp [GoodChain])
  | succ n ih =>
    intro m x h hnm
    obtain ⟨m', rfl⟩ : ∃ m', m = m' + 1 := ⟨m - 1, by omega⟩
    rw [GoodChain] at h ⊢
    cases hp : prev x with
    | none => trivial
    | some y =>
      rw [hp] at h
      exact ⟨h.1, ih h.2 (by omega)⟩

theorem GoodChain.anti {prev : Nat → Option Nat} {u u' : List Nat}
    (hsub : ∀ z, z ∈ u' → z ∈ u) :
    ∀ {n x}, GoodChain prev u x n → GoodChain prev u' x n := by
  intro n
  induction n with
  | zero => intro x h; exact absurd h (by simp [GoodChain])
  | succ n ih =>
    intro x h
    rw [GoodChain] at h ⊢
    cases hp : prev x with
    | none => trivial
    | some y =>
      rw [hp] at h
      exact ⟨fun hy => h.1 (hsub y hy), ih h.2⟩

theorem GoodChain.update {prev : Nat → Option Nat} {u' : List Nat} {nb : Nat}
    {v : Option Nat} (hnb : nb ∈ u') :
    ∀ {n x}, x ≠ nb → GoodChain prev u' x n →
      GoodChain (fun z => if z = nb then v else prev z) u' x n := by
  intro n
  induction n with
  | zero => intro x _ h; exact absurd h (by simp [GoodChain])
  | succ n ih =>
    intro x hx h
    rw [GoodChain] at h ⊢
    rw [if_neg hx]
    cases hp : prev x with
    | none => trivial
    | some y =>
      rw [hp] at h
      exact ⟨h.1, ih (fun hy => h.1 (hy ▸ hnb)) h.2⟩

theorem GoodChain_update_pair {p : Nat → Option Nat} {u' : List Nat}
    {nb c : Nat} (hnb : nb ∈ u') (hc : c ∉ u') (K : Nat)
    (h1 : ∀ x, x ∉ u' → GoodChain p u' x K)
    (h2 : ∀ x, GoodChain p u' x (K + 1)) :
    (∀ x, x ∉ u' → GoodChain (fun z => if z = nb then some c else p z) u' x K) ∧
    (∀ x, GoodChain (fun z => if z = nb then some c else p z) u' x (K + 1)) := by
  have part1 : ∀ x, x ∉ u' →
      GoodChain (fun z => if z = nb then some c else p z) u' x K := by
    intro x hx
    exact GoodChain.update hnb (fun he => hx (he ▸ hnb)) (h1 x hx)
  refine ⟨part1, ?_⟩
  intro x
  by_cases hx : x = nb
  · subst hx
    rw [GoodChain]
    cases K with
    | zero => exact absurd (h1 c hc) (by simp [GoodChain])
    | succ K' =>
      rw [if_pos rfl]
      exact ⟨hc, part1 c hc⟩
  · exact GoodChain.update hnb hx (h2 x)

theorem findMinNode_aux (dist : Nat → WithTop ℚ) :
    ∀ (l : List Nat) (o : Option Nat) (m : WithTop ℚ),
      (o = none → m = ⊤) → (∀ c, o = some c → dist c = m ∧ m < ⊤) →
      (∀ c, (l.foldl (fun acc nodeId =>
          if dist nodeId < acc.2 then (some nodeId, dist nodeId) else acc)
          (o, m)).1 = some c →
        dist c = (l.foldl (fun acc nodeId =>
          if dist nodeId < acc.2 then (some nodeId, dist nodeId) else acc)
          (o, m)).2 ∧
        (l.foldl (fun acc nodeId =>
          if dist nodeId < acc.2 then (some nodeId, dist nodeId) else acc)
          (o, m)).2 < ⊤ ∧ (c ∈ l ∨ o = some c)) ∧
      ((l.foldl (fun acc nodeId =>
          if dist nodeId < acc.2 then (some nodeId, dist nodeId) else acc)
          (o, m)).1 = none → o = none ∧ ∀ y ∈ l, ¬ dist y < ⊤) ∧
      (l.foldl (fun acc nodeId =>
          if dist nodeId < acc.2 then (some nodeId, dist nodeId) else acc)
          (o, m)).2 ≤ m ∧
      (∀ y ∈ l, (l.foldl (fun acc nodeId =>
          if dist nodeId < acc.2 then (some nodeId, dist nodeId) else acc)
          (o, m)).2 ≤ dist y) := by
  intro l
  induction l with
  | nil =>
    intro o m h0 h1
    refine ⟨fun c hc => ?_, fun hn => ⟨hn, by simp⟩, le_refl _, by simp⟩
    obtain ⟨hd, hlt⟩ := h1 c hc
    exact ⟨hd, hlt, Or.inr hc⟩
  | cons a l ih =>
    intro o m h0 h1
    rw [List.foldl_cons]
    by_cases ha : dist a < m
    · rw [if_pos ha]
      have h0' : (some a : Option Nat) = none → dist a = ⊤ := by simp
      have h1' : ∀ c, (some a : Option Nat) = some c → dist c = dist a ∧ dist a < ⊤ := by
        intro c hc
        obtain rfl := Option.some.inj hc
        exact ⟨rfl, lt_of_lt_of_le ha le_top⟩
      obtain ⟨f1, f2, f3, f4⟩ := ih (some a) (dist a) h0' h1'
      refine ⟨fun c hc => ?_, fun hn => absurd (f2 hn).1 (by simp), le_trans f3 ha.le, ?_⟩
      · obtain ⟨hd, hlt, hmem⟩ := f1 c hc
        refine ⟨hd, hlt, ?_⟩
        rcases hmem with h | h
        · exact Or.inl (List.mem_cons_of_mem _ h)
        · exact Or.inl (Option.some.inj h ▸ List.mem_cons_self a l)
      · intro y hy
        rcases List.mem_cons.mp hy with rfl | hy'
        · exact f3
        · exact f4 y hy'
    · rw [if_neg ha]
      obtain ⟨f1, f2, f3, f4⟩ := ih o m h0 h1
      refine ⟨fun c hc => ?_, fun hn => ?_, f3, ?_⟩
      · obtain ⟨hd, hlt, hmem⟩ := f1 c hc
        refine ⟨hd, hlt, ?_⟩
        rcases hmem with h | h
        · exact Or.inl (List.mem_cons_of_mem _ h)
        · exact Or.inr h
      · obtain ⟨ho, hall⟩ := f2 hn
        refine ⟨ho, fun y hy => ?_⟩
        rcases List.mem_cons.mp hy with rfl | hy'
        · rw [h0 ho] at ha
          exact ha
        · exact hall y hy'
      · intro y hy
        rcases List.mem_cons.mp hy with rfl | hy'
        · exact le_trans f3 (not_lt.mp ha)
        · exact f4 y hy'

theorem findMinNode_some {unvisited : List Nat} {dist : Nat → WithTop ℚ}
    {c : Nat} (h : findMinNode unvisited dist = some c) :
    c ∈ unvisited ∧ dist c < ⊤ ∧ ∀ y ∈ unvisited, dist c ≤ dist y := by
  obtain ⟨f1, _, _, f4⟩ := findMinNode_aux dist unvisited none ⊤
    (fun _ => rfl) (fun c hc => by cases hc)
  obtain ⟨hd, hlt, hmem⟩ := f1 c h
  refine ⟨hmem.resolve_right (by simp), hd ▸ hlt, fun y hy => hd ▸ f4 y hy⟩

theorem findMinNode_none {unvisited : List Nat} {dist : Nat → WithTop ℚ}
    (h : findMinNode unvisited dist = none) : ∀ y ∈ unvisited, dist y = ⊤ := by
  obtain ⟨_, f2, _, _⟩ := findMinNode_aux dist unvisited none ⊤
    (fun _ => rfl) (fun c hc => by cases hc)
  intro y hy
  have := (f2 h).2 y hy
  rw [lt_top_iff_ne_top] at this
  exact not_not.mp (by simpa using this)

theorem neighborOf_or {e : Route} {c nb : Nat} (h : neighborOf e c = some nb) :
    (e.startNodeId = c ∧ e.endNodeId = nb) ∨
    (e.endNodeId = c ∧ e.startNodeId = nb) := by
  unfold neighborOf at h
  split_ifs at h with h1 h2
  · exact Or.inl ⟨h1, Option.some.inj h⟩
  · exact Or.inr ⟨h2, Option.some.inj h⟩

theorem relaxOne_cases (c : Nat) (dc : WithTop ℚ) (u' : List Nat)
    (s : (Nat → WithTop ℚ) × (Nat → Option Nat)) (e : Route) :
    (relaxOne c dc u' s e = s ∧
      (∀ nb, neighborOf e c = some nb → nb ∈ u' →
        s.1 nb ≤ dc + (e.distance : WithTop ℚ))) ∨
    (∃ nb, neighborOf e c = some nb ∧ nb ∈ u' ∧
      dc + (e.distance : WithTop ℚ) < s.1 nb ∧
      relaxOne c dc u' s e =
        (fun x => if x = nb then dc + (e.distance : WithTop ℚ) else s.1 x,
         fun x => if x = nb then some c else s.2 x)) := by
  unfold relaxOne
  cases hnb : neighborOf e c with
  | none => exact Or.inl ⟨rfl, fun nb h => by cases h⟩
  | some nb =>
    dsimp only
    split_ifs with h1 h2
    · exact Or.inr ⟨nb, rfl, h1, h2, rfl⟩
    · refine Or.inl ⟨rfl, fun nb' h' _ => ?_⟩
      obtain rfl := Option.some.inj h'
      exact not_lt.mp h2
    · refine Or.inl ⟨rfl, fun nb' h' hmem => ?_⟩
      obtain rfl := Option.some.inj h'
      exact absurd hmem h1

/-- The facts established by one relaxation pass over the edge list `rts`,
relative to the pre-pass maps `d`, `p`: distances only decrease; each point
is untouched or relaxed through `current`; each processed edge out of
`current` into `unvisited` ends relaxed; and predecessor chains transport. -/
def RelaxFacts (routes : List Route) (c : Nat) (dc : WithTop ℚ) (u' : List Nat)
    (rts : List Route) (d : Nat → WithTop ℚ) (p : Nat → Option Nat)
    (r : (Nat → WithTop ℚ) × (Nat → Option Nat)) : Prop :=
  (∀ x, r.1 x ≤ d x) ∧
  (∀ x, (r.1 x = d x ∧ r.2 x = p x) ∨
        (x ∈ u' ∧ r.2 x = some c ∧ r.1 x < d x ∧
          ∃ w : ℚ, stepTo routes c x w ∧ r.1 x = dc + (w : WithTop ℚ))) ∧
  (∀ e ∈ rts, ∀ nb, neighborOf e c = some nb → nb ∈ u' →
      r.1 nb ≤ dc + (e.distance : WithTop ℚ)) ∧
  (∀ K, (∀ x, x ∉ u' → GoodChain p u' x K) →
    (∀ x, GoodChain p u' x (K + 1)) →
      (∀ x, x ∉ u' → GoodChain r.2 u' x K) ∧
      (∀ x, GoodChain r.2 u' x (K + 1)))

theorem relaxFold_facts (routes : List Route) (c : Nat) (dc : WithTop ℚ)
    (u' : List Nat) (hcu : c ∉ u') :
    ∀ (rts : List Route), (∀ e ∈ rts, e ∈ routes) →
      ∀ (d : Nat → WithTop ℚ) (p : Nat → Option Nat),
        RelaxFacts routes c dc u' rts d p (rts.foldl (relaxOne c dc u') (d, p)) := by
  intro rts
  induction rts with
  | nil =>
    intro _ d p
    exact ⟨fun x => le_refl _, fun x => Or.inl ⟨rfl, rfl⟩,
      fun e he => absurd he (List.not_mem_nil e), fun K h1 h2 => ⟨h1, h2⟩⟩
  | cons e rts' ih =>
    intro hsub d p
    rw [List.foldl_cons]
    have hemem : e ∈ routes := hsub e (List.mem_cons_self e rts')
    have hsub' : ∀ e' ∈ rts', e' ∈ routes :=
      fun e' he' => hsub e' (List.mem_cons_of_mem _ he')
    rcases relaxOne_cases c dc u' (d, p) e with ⟨heq, hbound⟩ | ⟨nb, hnb, hnbu, hlt, heq⟩
    · rw [heq]
      obtain ⟨g1, g2, g3, g4⟩ := ih hsub' d p
      refine ⟨g1, g2, ?_, g4⟩
      intro e' he' nb' hnb' hmem'
      rcases List.mem_cons.mp he' with rfl | he''
      · exact le_trans (g1 nb') (hbound nb' hnb' hmem')
      · exact g3 e' he'' nb' hnb' hmem'
    · rw [heq]
      have hstep : ∃ w : ℚ, stepTo routes c nb w ∧
          dc + ((e.distance : ℚ) : WithTop ℚ) = dc + (w : WithTop ℚ) := by
        refine ⟨e.distance, ?_, rfl⟩
        rcases neighborOf_or hnb with ⟨ha, hb⟩ | ⟨ha, hb⟩
        · exact ⟨e, hemem, rfl, Or.inl ⟨ha, hb⟩⟩
        · exact ⟨e, hemem, rfl, Or.inr ⟨hb, ha⟩⟩
      obtain ⟨g1, g2, g3, g4⟩ := ih hsub'
        (fun x => if x = nb then dc + (e.distance : WithTop ℚ) else d x)
        (fun x => if x = nb then some c else p x)
      refine ⟨?_, ?_, ?_, ?_⟩
      · intro z
        refine le_trans (g1 z) ?_
        by_cases hz : z = nb
        · simp only [hz, if_pos rfl]
          exact hlt.le
        · simp only [if_neg hz]
          exact le_rfl
      · intro z
        rcases g2 z with ⟨hd, hp⟩ | ⟨hzu, hp, hdlt, w, hw, hweq⟩
        · by_cases hz : z = nb
          · subst hz
            simp only [if_pos rfl] at hd hp
            rw [hd, hp]
            obtain ⟨w, hw, hweq⟩ := hstep
            exact Or.inr ⟨hnbu, rfl, hlt, w, hw, hweq⟩
          · simp only [if_neg hz] at hd hp
            rw [hd, hp]
            exact Or.inl ⟨rfl, rfl⟩
        · refine Or.inr ⟨hzu, hp, lt_of_lt_of_le hdlt ?_, w, hw, hweq⟩
          by_cases hz : z = nb
          · simp only [hz, if_pos rfl]
            exact hlt.le
          · simp only [if_neg hz]
            exact le_rfl
      · intro e' he' nb' hnb' hmem'
        rcases List.mem_cons.mp he' with rfl | he''
        · obtain rfl : nb' = nb := by
            rw [hnb] at hnb'
            exact (Option.some.inj hnb').symm
          refine le_trans (g1 nb') ?_
          simp only [if_pos rfl]
          exact le_rfl
        · exact g3 e' he'' nb' hnb' hmem'
      · intro K h1 h2
        obtain ⟨h1', h2'⟩ := GoodChain_update_pair hnbu hcu K h1 h2
        exact g4 K h1' h2'

/-- The invariant maintained by the `while` loop of `findShortestPath`
(stated for non-negative weights): tentative distances are achieved by real
walks, visited nodes are optimally settled and fully relaxed, the target is
still pending (or absent), and the predecessor map forms short grounded
chains through visited nodes. -/
structure LoopInv (routes : List Route) (allIds : List Nat) (s t : Nat)
    (unvisited : List Nat) (dist : Nat → WithTop ℚ)
    (prev : Nat → Option Nat) : Prop where
  dist_s : dist s = 0
  achieve : ∀ x (q : ℚ), dist x = (q : WithTop ℚ) → Reach routes s x q
  relaxed : ∀ x y (w : ℚ), x ∉ unvisited → stepTo routes x y w →
    dist y ≤ dist x + (w : WithTop ℚ)
  visited_min : ∀ x, x ∉ unvisited → ∀ (c : ℚ), Reach routes s x c →
    dist x ≤ (c : WithTop ℚ)
  target : t ∈ unvisited ∨ t ∉ allIds
  subset : ∀ z ∈ unvisited, z ∈ allIds
  nodup : unvisited.Nodup
  prev_edge : ∀ x y, prev x = some y →
    joined routes y x ∧ y ∉ unvisited ∧ dist y ≠ ⊤
  prev_s : prev s = none
  prev_finite : ∀ x, x ≠ s → dist x ≠ ⊤ → prev x ≠ none
  chain_visited : ∀ x, x ∉ unvisited →
    GoodChain prev unvisited x (allIds.length - unvisited.length + 1)
  chain_all : ∀ x,
    GoodChain prev unvisited x (allIds.length - unvisited.length + 2)

theorem loopInv_dist_nonneg {routes : List Route} {allIds : List Nat}
    {s t : Nat} {unvisited : List Nat} {dist : Nat → WithTop ℚ}
    {prev : Nat → Option Nat} (hw : ∀ e ∈ routes, 0 ≤ e.distance)
    (inv : LoopInv routes allIds s t unvisited dist prev) :
    ∀ x, (0 : WithTop ℚ) ≤ dist x := by
  intro x
  by_cases hx : dist x = ⊤
  · rw [hx]; exact le_top
  · obtain ⟨q, hq⟩ := WithTop.ne_top_iff_exists.mp hx
    rw [← hq]
    exact_mod_cast reach_nonneg hw (inv.achieve x q hq.symm)

theorem reconstructPath_spec {routes : List Route} {allIds : List Nat}
    {s t : Nat} {unvisited : List Nat} {dist : Nat → WithTop ℚ}
    {prev : Nat → Option Nat}
    (inv : LoopInv routes allIds s t unvisited dist prev) :
    ∀ (n fuel x : Nat), GoodChain prev unvisited x n → n ≤ fuel →
      dist x ≠ ⊤ →
      (reconstructPath prev fuel x).head? = some s ∧
      (reconstructPath prev fuel x).getLast? = some x ∧
      (reconstructPath prev fuel x).Chain' (joined routes) := by
  intro n
  induction n with
  | zero => intro fuel x h; exact absurd h (by simp [GoodChain])
  | succ n ih =>
    intro fuel x h hfuel hdist
    obtain ⟨f, rfl⟩ : ∃ f, fuel = f + 1 := ⟨fuel - 1, by omega⟩
    rw [reconstructPath]
    rw [GoodChain] at h
    cases hp : prev x with
    | none =>
      have hxs : x = s := by
        by_contra hxs
        exact inv.prev_finite x hxs hdist hp
      subst hxs
      exact ⟨rfl, rfl, List.chain'_singleton _⟩
    | some y =>
      rw [hp] at h
      obtain ⟨hyu, hchain⟩ := h
      obtain ⟨hjoin, _, hyfin⟩ := inv.prev_edge x y hp
      obtain ⟨ih1, ih2, ih3⟩ := ih f y hchain (by omega) hyfin
      obtain ⟨tl, htl⟩ : ∃ tl, reconstructPath prev f y = s :: tl := by
        cases hr : reconstructPath prev f y with
        | nil => rw [hr] at ih1; cases ih1
        | cons a tl =>
          rw [hr] at ih1
          exact ⟨tl, by rw [Option.some.inj ih1]⟩
      rw [htl] at ih2 ih3
      dsimp only
      rw [htl]
      refine ⟨by simp, List.getLast?_concat _, ?_⟩
      rw [List.chain'_append]
      refine ⟨ih3, List.chain'_singleton _, ?_⟩
      intro a ha b hb
      rw [Option.mem_def, ih2] at ha
      rw [Option.mem_def] at hb
      obtain rfl : a = y := Option.some.inj ha.symm
      simp only [List.head?_cons] at hb
      obtain rfl : b = x := Option.some.inj hb.symm
      exact hjoin

theorem dijkstraLoop_correct (routes : List Route) (allIds : List Nat)
    (s t : Nat) (hw : ∀ e ∈ routes, 0 ≤ e.distance)
    (hval : ∀ e ∈ routes, e.startNodeId ∈ allIds ∧ e.endNodeId ∈ allIds)
    (hst : s ≠ t) (RF : Nat) (hRF : allIds.length + 1 ≤ RF) :
    ∀ (fuel : Nat) (unvisited : List Nat) (dist : Nat → WithTop ℚ)
      (prev : Nat → Option Nat),
      fuel = unvisited.length →
      LoopInv routes allIds s t unvisited dist prev →
      (dijkstraLoop routes t RF fuel unvisited dist prev = none →
        ∀ c : ℚ, ¬ Reach routes s t c) ∧
      (∀ (p : List Nat) (d : ℚ),
        dijkstraLoop routes t RF fuel unvisited dist prev = some (p, d) →
        Reach routes s t d ∧ (∀ c : ℚ, Reach routes s t c → d ≤ c) ∧
        p.head? = some s ∧ p.getLast? = some t ∧
        p.Chain' (joined routes)) := by
  intro fuel
  induction fuel with
  | zero =>
    intro unvisited dist prev hfuel inv
    have hnil : unvisited = [] := List.length_eq_zero.mp hfuel.symm
    refine ⟨fun _ c hr => ?_, fun p d h => by cases h⟩
    rcases inv.target with htu | hta
    · rw [hnil] at htu
      cases htu
    · exact hta (reach_mem_of_ne hval hr (Ne.symm hst))
  | succ fuel IH =>
    intro unvisited dist prev hfuel inv
    cases hfm : findMinNode unvisited dist with
    | none =>
      have hloop : dijkstraLoop routes t RF (fuel + 1) unvisited dist prev = none := by
        simp only [dijkstraLoop, hfm]
      have hall := findMinNode_none hfm
      refine ⟨fun _ c hr => ?_, fun p d h => by rw [hloop] at h; cases h⟩
      have M : ∀ z (q : ℚ), Reach routes s z q → dist z ≠ ⊤ := by
        intro z q hz
        induction hz with
        | refl => rw [inv.dist_s]; exact (by simp : (0 : WithTop ℚ) ≠ ⊤)
        | @step v z' q1 e he hr' hor ih' =>
          by_cases hv : v ∈ unvisited
          · exact absurd (hall v hv) ih'
          · have hrel := inv.relaxed v z' e.distance hv ⟨e, he, rfl, hor⟩
            exact ne_top_of_le_ne_top
              (WithTop.add_ne_top.mpr ⟨ih', WithTop.coe_ne_top⟩) hrel
      rcases inv.target with htu | hta
      · exact M t c hr (hall t htu)
      · exact hta (reach_mem_of_ne hval hr (Ne.symm hst))
    | some c =>
      obtain ⟨hcmem, hclt, hcmin⟩ := findMinNode_some hfm
      obtain ⟨dc, hdc⟩ : ∃ dc : ℚ, dist c = (dc : WithTop ℚ) := by
        obtain ⟨dc, h⟩ := WithTop.ne_top_iff_exists.mp (lt_top_iff_ne_top.mp hclt)
        exact ⟨dc, h.symm⟩
      have hdc0 : 0 ≤ dc := reach_nonneg hw (inv.achieve c dc hdc)
      have L : ∀ z (q : ℚ), Reach routes s z q → z ∈ unvisited →
          dist c ≤ (q : WithTop ℚ) := by
        intro z q hz
        induction hz with
        | refl =>
          intro hs
          refine le_trans (hcmin s hs) ?_
          rw [inv.dist_s, WithTop.coe_zero]
        | @step v z' q1 e he hr' hor ih' =>
          intro hz'
          by_cases hv : v ∈ unvisited
          · refine le_trans (ih' hv) ?_
            exact_mod_cast le_add_of_nonneg_right (hw e he)
          · have h1 := inv.relaxed v z' e.distance hv ⟨e, he, rfl, hor⟩
            have h2 := inv.visited_min v hv q1 hr'
            calc dist c ≤ dist z' := hcmin z' hz'
              _ ≤ dist v + (e.distance : WithTop ℚ) := h1
              _ ≤ (q1 : WithTop ℚ) + (e.distance : WithTop ℚ) := add_le_add_right h2 _
              _ = ((q1 + e.distance : ℚ) : WithTop ℚ) := (WithTop.coe_add _ _).symm
      by_cases hct : c = t
      · subst hct
        have hloop : dijkstraLoop routes c RF (fuel + 1) unvisited dist prev =
            some (reconstructPath prev RF c, (dist c).untop' 0) := by
          simp only [dijkstraLoop, hfm, if_true]
        constructor
        · intro h
          rw [hloop] at h
          cases h
        intro p d h
        rw [hloop] at h
        obtain ⟨h1, h2⟩ := Prod.ext_iff.mp (Option.some.inj h)
        dsimp only at h1 h2
        have hduntop : (dist c).untop' 0 = dc := by
          rw [hdc]
          exact WithTop.untop'_coe _ _
        obtain rfl : d = dc := by rw [← h2, hduntop]
        have hu1 : 0 < unvisited.length := List.length_pos_of_mem hcmem
        have hu2 : unvisited.length ≤ allIds.length :=
          (inv.nodup.subperm inv.subset).length_le
        have hpath := reconstructPath_spec inv
          (allIds.length - unvisited.length + 2) RF c (inv.chain_all c)
          (by omega) (lt_top_iff_ne_top.mp hclt)
        rw [h1] at hpath
        exact ⟨inv.achieve c d hdc,
          fun q hq => WithTop.coe_le_coe.mp (hdc ▸ L c q hq hcmem),
          hpath.1, hpath.2.1, hpath.2.2⟩
      · have hu1 : 0 < unvisited.length := List.length_pos_of_mem hcmem
        have hu2 : unvisited.length ≤ allIds.length :=
          (inv.nodup.subperm inv.subset).length_le
        have hcu : c ∉ unvisited.erase c := inv.nodup.not_mem_erase
        have hra : relaxAll routes c (dist c) (unvisited.erase c) dist prev =
            routes.foldl (relaxOne c (dist c) (unvisited.erase c)) (dist, prev) := rfl
        obtain ⟨g1, g2, g3, g4⟩ := hra ▸
          relaxFold_facts routes c (dist c) (unvisited.erase c) hcu routes
            (fun _ he => he) dist prev
        have hloop : dijkstraLoop routes t RF (fuel + 1) unvisited dist prev =
            dijkstraLoop routes t RF fuel (unvisited.erase c)
              (relaxAll routes c (dist c) (unvisited.erase c) dist prev).1
              (relaxAll routes c (dist c) (unvisited.erase c) dist prev).2 := by
          simp only [dijkstraLoop, hfm]
          rw [if_neg hct]
        have hfuel' : fuel = (unvisited.erase c).length := by
          rw [List.length_erase_of_mem hcmem]
          have := List.length_pos_of_mem hcmem
          omega
        have hmem_split : ∀ {x : Nat}, x ∉ unvisited.erase c →
            x = c ∨ x ∉ unvisited := by
          intro x hx
          by_cases hxc : x = c
          · exact Or.inl hxc
          · refine Or.inr fun hxu => hx ?_
            exact (List.mem_erase_of_ne hxc).mpr hxu
        have hkeep_of_not_mem : ∀ {x : Nat}, x ∉ unvisited.erase c →
            (relaxAll routes c (dist c) (unvisited.erase c) dist prev).1 x = dist x ∧
            (relaxAll routes c (dist c) (unvisited.erase c) dist prev).2 x = prev x := by
          intro x hx
          rcases g2 x with h | h
          · exact h
          · exact absurd h.1 hx
        have hr1_nonneg : ∀ x, (0 : WithTop ℚ) ≤
            (relaxAll routes c (dist c) (unvisited.erase c) dist prev).1 x := by
          intro x
          rcases g2 x with ⟨hd, _⟩ | ⟨_, _, _, w, hwstep, hweq⟩
          · rw [hd]
            exact loopInv_dist_nonneg hw inv x
          · rw [hweq, hdc]
            obtain ⟨e, he, rfl, _⟩ := hwstep
            rw [← WithTop.coe_add]
            exact_mod_cast add_nonneg hdc0 (hw e he)
        have hinv' : LoopInv routes allIds s t (unvisited.erase c)
            (relaxAll routes c (dist c) (unvisited.erase c) dist prev).1
            (relaxAll routes c (dist c) (unvisited.erase c) dist prev).2 := by
          refine ⟨?_, ?_, ?_, ?_, ?_, ?_, ?_, ?_, ?_, ?_, ?_, ?_⟩
          · -- dist_s
            refine le_antisymm ?_ (hr1_nonneg s)
            rw [← inv.dist_s]
            exact g1 s
          · -- achieve
            intro x q hx
            rcases g2 x with ⟨hd, _⟩ | ⟨_, _, _, w, hwstep, hweq⟩
            · exact inv.achieve x q (by rw [← hd]; exact hx)
            · rw [hweq, hdc, ← WithTop.coe_add] at hx
              obtain rfl : dc + w = q := WithTop.coe_injective hx
              exact reach_step' (inv.achieve c dc hdc) hwstep
          · -- relaxed
            intro x y w hx hstep
            rcases hmem_split hx with rfl | hxv
            · rw [(hkeep_of_not_mem hcu).1]
              by_cases hy : y ∈ unvisited.erase x
              · obtain ⟨e, he, rfl, hor⟩ := hstep
                have hyx : y ≠ x := by
                  intro h
                  rw [h] at hy
                  exact hcu hy
                have hnb : neighborOf e x = some y := by
                  unfold neighborOf
                  rcases hor with ⟨ha, hb⟩ | ⟨ha, hb⟩
                  · rw [if_pos ha, hb]
                  · by_cases hsx : e.startNodeId = x
                    · exact absurd (ha.symm.trans hsx) hyx
                    · rw [if_neg hsx, if_pos hb, ha]
                exact g3 e he y hnb hy
              · rcases hmem_split hy with rfl | hyv
                · rw [(hkeep_of_not_mem hcu).1]
                  refine le_add_of_nonneg_right ?_
                  obtain ⟨e, he, rfl, _⟩ := hstep
                  exact_mod_cast hw e he
                · rw [(hkeep_of_not_mem hy).1]
                  have hreach : Reach routes s y (dc + w) :=
                    reach_step' (inv.achieve x dc hdc) hstep
                  have := inv.visited_min y hyv (dc + w) hreach
                  rw [hdc, ← WithTop.coe_add]
                  exact this
            · obtain ⟨hd, _⟩ := hkeep_of_not_mem hx
              rw [hd]
              refine le_trans (g1 y) ?_
              exact inv.relaxed x y w hxv hstep
          · -- visited_min
            intro x hx q hreach
            rcases hmem_split hx with rfl | hxv
            · rw [(hkeep_of_not_mem hcu).1, hdc]
              exact hdc ▸ L x q hreach hcmem
            · refine le_trans (g1 x) ?_
              exact inv.visited_min x hxv q hreach
          · -- target
            rcases inv.target with htu | hta
            · exact Or.inl ((List.mem_erase_of_ne (fun h => hct h.symm)).mpr htu)
            · exact Or.inr hta
          · -- subset
            intro z hz
            exact inv.subset z (List.mem_of_mem_erase hz)
          · -- nodup
            exact inv.nodup.erase c
          · -- prev_edge
            intro x y hxy
            rcases g2 x with ⟨hd, hp⟩ | ⟨_, hp, _, w, hwstep, hweq⟩
            · rw [hp] at hxy
              obtain ⟨hj, hyu, hyfin⟩ := inv.prev_edge x y hxy
              refine ⟨hj, fun hy => hyu (List.mem_of_mem_erase hy), ?_⟩
              exact ne_top_of_le_ne_top hyfin (g1 y)
            · rw [hp] at hxy
              obtain rfl : y = c := (Option.some.inj hxy).symm
              refine ⟨stepTo_joined hwstep, hcu, ?_⟩
              rw [(hkeep_of_not_mem hcu).1, hdc]
              exact WithTop.coe_ne_top
          · -- prev_s
            rcases g2 s with ⟨_, hp⟩ | ⟨_, _, hlt', _, _, _⟩
            · rw [hp]
              exact inv.prev_s
            · rw [inv.dist_s] at hlt'
              exact absurd (lt_of_le_of_lt (hr1_nonneg s) hlt') (lt_irrefl 0)
          · -- prev_finite
            intro x hxs hxfin
            rcases g2 x with ⟨hd, hp⟩ | ⟨_, hp, _, _, _, _⟩
            · rw [hp]
              exact inv.prev_finite x hxs (by rw [← hd]; exact hxfin)
            · rw [hp]
              exact Option.some_ne_none c
          · -- chain_visited
            intro x hx
            have hK := (g4 (allIds.length - unvisited.length + 2) ?h1 ?h2).1 x hx
            case h1 =>
              intro z hz
              rcases hmem_split hz with rfl | hzv
              · exact (inv.chain_all z).anti (fun a ha => List.mem_of_mem_erase ha)
              · exact ((inv.chain_visited z hzv).anti
                  (fun a ha => List.mem_of_mem_erase ha)).mono (by omega)
            case h2 =>
              intro z
              exact ((inv.chain_all z).anti
                (fun a ha => List.mem_of_mem_erase ha)).mono (by omega)
            have hb : allIds.length - unvisited.length + 2 =
                allIds.length - (unvisited.erase c).length + 1 := by
              rw [List.length_erase_of_mem hcmem]
              omega
            exact hb ▸ hK
          · -- chain_all
            intro x
            have hK := (g4 (allIds.length - unvisited.length + 2) ?h1 ?h2).2 x
            case h1 =>
              intro z hz
              rcases hmem_split hz with rfl | hzv
              · exact (inv.chain_all z).anti (fun a ha => List.mem_of_mem_erase ha)
              · exact ((inv.chain_visited z hzv).anti
                  (fun a ha => List.mem_of_mem_erase ha)).mono (by omega)
            case h2 =>
              intro z
              exact ((inv.chain_all z).anti
                (fun a ha => List.mem_of_mem_erase ha)).mono (by omega)
            have hb : allIds.length - unvisited.length + 2 + 1 =
                allIds.length - (unvisited.erase c).length + 2 := by
              rw [List.length_erase_of_mem hcmem]
              omega
            exact hb ▸ hK
        constructor
        · intro h
          rw [hloop] at h
          exact (IH _ _ _ hfuel' hinv').1 h
        · intro p d h
          rw [hloop] at h
          exact (IH _ _ _ hfuel' hinv').2 p d h

theorem initial_inv (nodes : List Node) (routes : List Route) (s t : Nat)
    (hval : ∀ e ∈ routes,
      e.startNodeId ∈ nodeIds nodes ∧ e.endNodeId ∈ nodeIds nodes)
    (hnd : (nodeIds nodes).Nodup) :
    LoopInv routes (nodeIds nodes) s t (nodeIds nodes)
      (fun x => if x = s then (0 : WithTop ℚ) else ⊤) (fun _ => none) := by
  refine ⟨?_, ?_, ?_, ?_, ?_, ?_, ?_, ?_, ?_, ?_, ?_, ?_⟩
  · simp
  · intro x q hx
    by_cases hxs : x = s
    · subst hxs
      rw [if_pos rfl] at hx
      obtain rfl : (0 : ℚ) = q := by exact_mod_cast hx
      exact Reach.refl x
    · rw [if_neg hxs] at hx
      cases hx
  · intro x y w hx hstep
    obtain ⟨e, he, rfl, hor⟩ := hstep
    exfalso
    rcases hor with ⟨h1, _⟩ | ⟨_, h2⟩
    · exact hx (h1 ▸ (hval e he).1)
    · exact hx (h2 ▸ (hval e he).2)
  · intro x hx c hreach
    cases hreach with
    | refl =>
      rw [if_pos rfl]
      exact_mod_cast le_refl (0 : ℚ)
    | step e he hr hor =>
      exfalso
      rcases hor with ⟨_, h2⟩ | ⟨h1, _⟩
      · exact hx (h2 ▸ (hval e he).2)
      · exact hx (h1 ▸ (hval e he).1)
  · by_cases ht : t ∈ nodeIds nodes
    · exact Or.inl ht
    · exact Or.inr ht
  · exact fun z hz => hz
  · exact hnd
  · intro x y h
    cases h
  · rfl
  · intro x hxs hxfin
    rw [if_neg hxs] at hxfin
    exact absurd rfl hxfin
  · intro x _
    rw [Nat.sub_self]
    rw [GoodChain]
    exact trivial
  · intro x
    rw [Nat.sub_self]
    rw [GoodChain]
    exact trivial

/-- C6: the shortest-path resolver on a valid graph (endpoints present,
non-negative weights as the data model requires, unique node ids): the
trivial query returns the one-node path with distance 0; the resolver
returns `null` exactly when the target is unreachable from the source over
the undirected edge set; and any returned distance is both achieved by a
real walk and minimal among all walk costs. -/
theorem C6_shortest_path_resolver_spec (nodes : List Node) (routes : List Route)
    (sourceId targetId : Nat)
    (hval : ∀ e ∈ routes,
      e.startNodeId ∈ nodeIds nodes ∧ e.endNodeId ∈ nodeIds nodes)
    (hw : ∀ e ∈ routes, 0 ≤ e.distance)
    (hnd : (nodeIds nodes).Nodup) :
    (sourceId = targetId →
      findShortestPath nodes routes sourceId targetId = some ([sourceId], 0)) ∧
    (findShortestPath nodes routes sourceId targetId = none ↔
      ¬ ∃ c : ℚ, Reach routes sourceId targetId c) ∧
    (∀ (p : List Nat) (d : ℚ),
      findShortestPath nodes routes sourceId targetId = some (p, d) →
      Reach routes sourceId targetId d ∧
      ∀ c : ℚ, Reach routes sourceId targetId c → d ≤ c) := by
  by_cases hst : sourceId = targetId
  · subst hst
    have heq : findShortestPath nodes routes sourceId sourceId =
        some ([sourceId], 0) := by
      rw [findShortestPath, if_pos rfl]
    refine ⟨fun _ => heq, ?_, ?_⟩
    · rw [heq]
      exact iff_of_false (by simp)
        (not_not_intro ⟨0, Reach.refl sourceId⟩)
    · intro p d h
      rw [heq] at h
      obtain ⟨h1, h2⟩ := Prod.ext_iff.mp (Option.some.inj h)
      dsimp only at h1 h2
      obtain rfl := h2
      exact ⟨Reach.refl sourceId, fun c hc => reach_nonneg hw hc⟩
  · have hfsp : findShortestPath nodes routes sourceId targetId =
        dijkstraLoop routes targetId (nodes.length + 1)
          (nodeIds nodes).length (nodeIds nodes)
          (fun x => if x = sourceId then (0 : WithTop ℚ) else ⊤)
          (fun _ => none) := by
      rw [findShortestPath, if_neg hst]
    have master := dijkstraLoop_correct routes (nodeIds nodes)
      sourceId targetId hw hval hst (nodes.length + 1)
      (by simp [nodeIds]) (nodeIds nodes).length (nodeIds nodes)
      (fun x => if x = sourceId then (0 : WithTop ℚ) else ⊤)
      (fun _ => none) rfl (initial_inv nodes routes sourceId targetId hval hnd)
    refine ⟨fun h => absurd h hst, ?_, ?_⟩
    · constructor
      · intro h
        rintro ⟨c, hc⟩
        exact master.1 (hfsp ▸ h) c hc
      · intro hn
        cases hopt : findShortestPath nodes routes sourceId targetId with
        | none => rfl
        | some pd =>
          obtain ⟨p, d⟩ := pd
          have := (master.2 p d (hfsp ▸ hopt)).1
          exact absurd ⟨d, this⟩ hn
    · intro p d h
      obtain ⟨h1, h2, _⟩ := master.2 p d (hfsp ▸ h)
      exact ⟨h1, h2⟩

/-- C9: every path the shortest-path resolver returns on a valid graph is a
genuine path of the graph: it starts at the source, ends at the target, and
each consecutive node-id pair is joined by an edge of the input edge set. -/
theorem C9_shortest_path_returns_valid_path (nodes : List Node)
    (routes : List Route) (sourceId targetId : Nat)
    (hval : ∀ e ∈ routes,
      e.startNodeId ∈ nodeIds nodes ∧ e.endNodeId ∈ nodeIds nodes)
    (hw : ∀ e ∈ routes, 0 ≤ e.distance)
    (hnd : (nodeIds nodes).Nodup) :
    ∀ (p : List Nat) (d : ℚ),
      findShortestPath nodes routes sourceId targetId = some (p, d) →
      p.head? = some sourceId ∧ p.getLast? = some targetId ∧
      p.Chain' (joined routes) := by
  by_cases hst : sourceId = targetId
  · subst hst
    intro p d h
    rw [findShortestPath, if_pos rfl] at h
    obtain ⟨h1, _⟩ := Prod.ext_iff.mp (Option.some.inj h)
    dsimp only at h1
    rw [← h1]
    exact ⟨rfl, rfl, List.chain'_singleton _⟩
  · have hfsp : findShortestPath nodes routes sourceId targetId =
        dijkstraLoop routes targetId (nodes.length + 1)
          (nodeIds nodes).length (nodeIds nodes)
          (fun x => if x = sourceId then (0 : WithTop ℚ) else ⊤)
          (fun _ => none) := by
      rw [findShortestPath, if_neg hst]
    have master := dijkstraLoop_correct routes (nodeIds nodes)
      sourceId targetId hw hval hst (nodes.length + 1)
      (by simp [nodeIds]) (nodeIds nodes).length (nodeIds nodes)
      (fun x => if x = sourceId then (0 : WithTop ℚ) else ⊤)
      (fun _ => none) rfl (initial_inv nodes routes sourceId targetId hval hnd)
    intro p d h
    obtain ⟨_, _, h3, h4, h5⟩ := master.2 p d (hfsp ▸ h)
    exact ⟨h3, h4, h5⟩

/-- Witness for C6 at a concrete instance: two nodes joined by one edge of
weight 5, querying from node 1 to node 2. -/
theorem C6_shortest_path_resolver_spec_witness :
    ((∀ e ∈ ([⟨7, 1, 2, 5⟩] : List Route),
        e.startNodeId ∈ nodeIds [nodeA, nodeB] ∧
        e.endNodeId ∈ nodeIds [nodeA, nodeB]) ∧
      (∀ e ∈ ([⟨7, 1, 2, 5⟩] : List Route), 0 ≤ e.distance) ∧
      (nodeIds [nodeA, nodeB]).Nodup) ∧
    (findShortestPath [nodeA, nodeB] [⟨7, 1, 2, 5⟩] 1 2 = none ↔
      ¬ ∃ c : ℚ, Reach [⟨7, 1, 2, 5⟩] 1 2 c) :=
  ⟨⟨by decide, by decide, by decide⟩,
   (C6_shortest_path_resolver_spec [nodeA, nodeB] [⟨7, 1, 2, 5⟩] 1 2
     (by decide) (by decide) (by decide)).2.1⟩

/-- Witness for C9 at a concrete instance: the disconnected four-node graph,
querying from node 1 to node 2. -/
theorem C9_shortest_path_returns_valid_path_witness :
    ((∀ e ∈ discRoutes,
        e.startNodeId ∈ nodeIds discNodes ∧ e.endNodeId ∈ nodeIds discNodes) ∧
      (∀ e ∈ discRoutes, 0 ≤ e.distance) ∧
      (nodeIds discNodes).Nodup) ∧
    (∀ (p : List Nat) (d : ℚ),
      findShortestPath discNodes discRoutes 1 2 = some (p, d) →
      p.head? = some 1 ∧ p.getLast? = some 2 ∧
      p.Chain' (joined discRoutes)) :=
  ⟨⟨by decide, by decide, by decide⟩,
   C9_shortest_path_returns_valid_path discNodes discRoutes 1 2
     (by decide) (by decide) (by decide)⟩
